import Mathlib

/-!
Verification of the `gp_std` 128-bit hash map (`include/containers/gp_hashmap.hpp`).

This file gives a shallow embedding of the wide hash type `_128_BIT_HASH_`,
the sharded map `hash_map_128_t`, its iterator, and the operations
`insert` / `remove` / `get` / `contains` / `resize`, together with theorems
about the frozen specification claims.

Machine integers are modeled as `Nat` with explicit `% 2 ^ w` at the points
where the C++ code converts or can wrap:
* the constructor parameter `bucket_count` is `uint32_t`, so a `size_t`
  argument is reduced `% 2 ^ 32` on entry;
* `size()`, `domain_size()` and `buckets_count()` return `uint32_t`, so the
  underlying `size_t` quantities are reduced `% 2 ^ 32` on return;
* the iterator computes `size() - 1` in `size_t` arithmetic, modeled by
  `(n + (2 ^ 64 - 1)) % 2 ^ 64`.
-/

namespace GpHashMap

/-- The all-ones `uint64_t` value `0xffffffffffffffff`. -/
def U64MAX : Nat := 2 ^ 64 - 1

/-- The all-ones `uint32_t` value `0xffffffff`, used as the iterator end
sentinel for both the domain index and the pair index. -/
def ENDI : Nat := 2 ^ 32 - 1

/-- `_128_BIT_HASH_` with its inner `_128_bit_type`: two `uint64_t` halves
`_64_bit_id[0]` (here `id0`) and `_64_bit_id[1]` (here `id1`). -/
structure Hash128 where
  id0 : Nat
  id1 : Nat
deriving DecidableEq

/-- `_128_BIT_HASH_::invalidate()`: both halves are set to all-ones. -/
def Hash128.invalidate (_h : Hash128) : Hash128 := ⟨U64MAX, U64MAX⟩

/-- `_128_BIT_HASH_::is_numeric_limit()`. -/
def Hash128.is_numeric_limit (h : Hash128) : Bool :=
  decide (h.id0 = U64MAX ∧ h.id1 = U64MAX)

/-- `_128_BIT_HASH_::is_valid()`: false only for the all-ones sentinel. -/
def Hash128.is_valid (h : Hash128) : Bool := !h.is_numeric_limit

/-- The tombstone sentinel hash value (both halves all-ones). -/
def TOMB : Hash128 := ⟨U64MAX, U64MAX⟩

/-- `_128_bit_type::operator[]`: the four 32-bit fields.  In the source,
`& 0xFFFFFFFF` on a `uint64_t` is `% 2 ^ 32` and `>> 32` is `/ 2 ^ 32`.
Indices other than 0, 1, 2 fall into the final `else` and read field 3. -/
def Hash128.field32 (h : Hash128) (i : Nat) : Nat :=
  if i = 0 then h.id0 % 2 ^ 32
  else if i = 1 then h.id0 / 2 ^ 32 % 2 ^ 32
  else if i = 2 then h.id1 % 2 ^ 32
  else h.id1 / 2 ^ 32 % 2 ^ 32

/-- `_128_bit_type::set_32_bit_field`: the `value` parameter is a `uint32_t`
(so below `2 ^ 32`); `(uint64_t(x) << 32) | v` with `x, v < 2 ^ 32` equals
`x * 2 ^ 32 + v` because the two operands occupy disjoint bit ranges.
An index greater than 3 only prints an error and leaves the value unchanged. -/
def Hash128.set_32_bit_field (h : Hash128) (i v : Nat) : Hash128 :=
  if i = 0 then { h with id0 := h.field32 1 * 2 ^ 32 + v }
  else if i = 1 then { h with id0 := v * 2 ^ 32 + h.field32 0 }
  else if i = 2 then { h with id1 := h.field32 3 * 2 ^ 32 + v }
  else if i = 3 then { h with id1 := v * 2 ^ 32 + h.field32 2 }
  else h

/-- The two-argument constructor `_128_BIT_HASH_(id_1, id_2)`: the smaller
argument is stored in half 0 and the larger in half 1. -/
def mkHash2 (a b : Nat) : Hash128 := if a < b then ⟨a, b⟩ else ⟨b, a⟩

/-- `_128_BIT_HASH_::operator<` is
`bool operator<(const _128_BIT_HASH_ &hash) const { return (*this < hash); }`,
an unconditional call to itself on the same arguments.  The recursion is
modeled with explicit fuel; `none` means that the given amount of fuel was
exhausted without the body ever producing a value. -/
def ltFuel : Nat → Hash128 → Hash128 → Option Bool
  | 0, _, _ => none
  | n + 1, a, b => ltFuel n a b

/-- `_128_BIT_HASH_::operator>`: compares `_64_bit_id[0]` first; when the
`[0]` halves are equal it returns `true` if `_64_bit_id[1]` is greater, and
otherwise control falls off the end of the function without executing any
return statement (undefined behavior in C++), modeled as `none`. -/
def gtOp (a b : Hash128) : Option Bool :=
  if a.id0 ≠ b.id0 then some (decide (b.id0 < a.id0))
  else if b.id1 < a.id1 then some true
  else none

/-- `hash_map_128_t::pair`: key, value and the stored `hash_value`. -/
structure HPair (K V : Type) where
  key : K
  value : V
  hash_value : Hash128
deriving DecidableEq

/-- `pair::invalidate()`: overwrite the hash field with the tombstone. -/
def HPair.invalidate {K V : Type} (e : HPair K V) : HPair K V :=
  { e with hash_value := e.hash_value.invalidate }

/-- `pair::is_valid()`. -/
def HPair.is_valid {K V : Type} (e : HPair K V) : Bool := e.hash_value.is_valid

/-- `hash_map_128_t`: the domain count `max_domains` and the vector of
per-domain backing sequences `hash_table`.  The locks and the compute-device
pointer carry no sequential state and are omitted. -/
structure HMap (K V : Type) where
  max_domains : Nat
  hash_table : List (List (HPair K V))
deriving DecidableEq

/-- Replace one element of a list in place (`hash_table[d][i] = ...`). -/
def modifyIdx {α : Type} : List α → Nat → (α → α) → List α
  | [], _, _ => []
  | x :: xs, 0, f => f x :: xs
  | x :: xs, n + 1, f => x :: modifyIdx xs n f

variable {K V : Type}

/-- The constructor `hash_map_128_t(const uint32_t& bucket_count)`: the
parameter type is `uint32_t`, so a `size_t` argument (as passed by `rehash`)
is truncated `% 2 ^ 32`; `max_domains` many empty domains are created. -/
def initMap (bc : Nat) : HMap K V :=
  ⟨bc % 2 ^ 32, List.replicate (bc % 2 ^ 32) []⟩

/-- The backing sequence of domain `d` (`hash_table[d]`). -/
def dom (m : HMap K V) (d : Nat) : List (HPair K V) := m.hash_table.getD d []

/-- `eval_domain_index`: `((h[0] % max_domains) + (h[1] % max_domains)) % max_domains`. -/
def eval_domain_index (m : HMap K V) (h : Hash128) : Nat :=
  (h.id0 % m.max_domains + h.id1 % m.max_domains) % m.max_domains

/-- The linear scan of `search_concurrent`: the index of the first entry
whose stored `hash_value` equals the probe hash (key equality is never
checked by the source).  The delegated-search kernel finds an entry with
the same matching condition, so this is also its sequential specification. -/
def scanIdx : List (HPair K V) → Hash128 → Option Nat
  | [], _ => none
  | e :: es, h => if e.hash_value = h then some 0 else (scanIdx es h).map (· + 1)

/-- Overwrite the backing sequence of domain `d`. -/
def setDomain (m : HMap K V) (d : Nat) (l : List (HPair K V)) : HMap K V :=
  { m with hash_table := m.hash_table.set d l }

variable (hashFn : K → Hash128)

/-- `insert(const Key&, const Value&)`: scan for an existing entry with a
matching hash; if found overwrite its value in place, else append a new
entry `pair(key, value, hash)` to the domain. -/
def insertOp (m : HMap K V) (k : K) (v : V) : HMap K V :=
  let h := hashFn k
  let d := eval_domain_index m h
  match scanIdx (dom m d) h with
  | some i => setDomain m d (modifyIdx (dom m d) i (fun e => { e with value := v }))
  | none => setDomain m d (dom m d ++ [⟨k, v, h⟩])

/-- `remove(const Key&)`: scan for a matching hash; if found overwrite the
entry's hash field with the tombstone sentinel, else do nothing. -/
def removeOp (m : HMap K V) (k : K) : HMap K V :=
  let h := hashFn k
  let d := eval_domain_index m h
  match scanIdx (dom m d) h with
  | some i => setDomain m d (modifyIdx (dom m d) i HPair.invalidate)
  | none => m

/-- `get(const Key&)`: scan for a matching hash and return the value. -/
def getOp (m : HMap K V) (k : K) : Option V :=
  let h := hashFn k
  let d := eval_domain_index m h
  match scanIdx (dom m d) h with
  | some i => ((dom m d)[i]?).map HPair.value
  | none => none

/-- `contains(const Key&)`. -/
def containsOp (m : HMap K V) (k : K) : Bool :=
  (scanIdx (dom m (eval_domain_index m (hashFn k))) (hashFn k)).isSome

/-- `no_check_insert`: append without scanning (used by `rehash`); the hash
is recomputed from the key. -/
def noCheckInsert (m : HMap K V) (k : K) (v : V) : HMap K V :=
  let h := hashFn k
  let d := eval_domain_index m h
  setDomain m d (dom m d ++ [⟨k, v, h⟩])

/-- `get_domain_size` (returns `size_t`, no truncation). -/
def get_domain_size (m : HMap K V) (d : Nat) : Nat :=
  if m.max_domains ≤ d then 0 else (dom m d).length

/-- `domain_size` forwards `get_domain_size` through a `uint32_t` return type. -/
def domain_size (m : HMap K V) (d : Nat) : Nat := get_domain_size m d % 2 ^ 32

/-- `get_domain_count` (returns `size_t`). -/
def get_domain_count (m : HMap K V) : Nat := m.max_domains

/-- `buckets_count` returns `uint32_t`. -/
def buckets_count (m : HMap K V) : Nat := get_domain_count m % 2 ^ 32

/-- `get_total_size`: sum of `hash_table[i].size()` for `i < max_domains`
(tombstoned entries included, since they still occupy slots). -/
def get_total_size (m : HMap K V) : Nat :=
  (List.range m.max_domains).foldl (fun acc i => acc + (dom m i).length) 0

/-- `size()` returns `uint32_t`. -/
def sizeOp (m : HMap K V) : Nat := get_total_size m % 2 ^ 32

/-- All slots of the table in iteration order (domain 0 first). -/
def flatTable (m : HMap K V) : List (HPair K V) := m.hash_table.flatten

/-- The number of live (non-tombstoned) entries across all domains. -/
def liveCount (m : HMap K V) : Nat :=
  ((flatTable m).filter (fun e => e.is_valid)).length

/-- The number of tombstoned entries across all domains. -/
def tombCount (m : HMap K V) : Nat :=
  ((flatTable m).filter (fun e => !e.is_valid)).length

/-- Iterator position: `m_domain_index` and `m_pair_index`. -/
structure IterPos where
  di : Nat
  pi : Nat
deriving DecidableEq

/-- The end sentinel `(0xffffffff, 0xffffffff)` produced by `end()`. -/
def endPos : IterPos := ⟨ENDI, ENDI⟩

/-- The `m_domain_index == 0xffffffff && m_pair_index == 0xffffffff` test. -/
def IterPos.isEnd (p : IterPos) : Bool := decide (p.di = ENDI ∧ p.pi = ENDI)

/-- Body of the bounded search loop over domain indices, structurally
recursive on the number of remaining loop iterations. -/
def findNEAux (m : HMap K V) : Nat → Nat → Option Nat
  | 0, _ => none
  | fuel + 1, s =>
    if s < m.max_domains then
      if 0 < (dom m s).length then some s else findNEAux m fuel (s + 1)
    else none

/-- The first domain with a nonzero size at index `≥ s` (the search loops of
the begin constructor and of `forward()`, which run `i` from `s` to
`max_domains - 1`). -/
def findNE (m : HMap K V) (s : Nat) : Option Nat :=
  findNEAux m (m.max_domains - s) s

/-- `size_t` subtraction `size() - 1` (wraps to `2 ^ 64 - 1` when the size
is zero). -/
def sub1u64 (n : Nat) : Nat := (n + (2 ^ 64 - 1)) % 2 ^ 64

/-- `iterator::forward()`. -/
def fwd (m : HMap K V) (p : IterPos) : IterPos :=
  if p.isEnd then p
  else if p.pi < sub1u64 (dom m p.di).length then ⟨p.di, p.pi + 1⟩
  else
    match findNE m (p.di + 1) with
    | some j => ⟨j, 0⟩
    | none => endPos

/-- Full iterator state: position plus `m_last_valid_pair`.  The pointer is
modeled by the pair value it points at; `none` models a null pointer (and
also the uninitialized pointer of the begin constructor, which the code
never reads before writing on the paths modeled here). -/
structure IterSt (K V : Type) where
  pos : IterPos
  last : Option (HPair K V)
deriving DecidableEq

/-- The `while (!(m_last_valid_pair->is_valid()))` loop of `operator*`:
keep calling `forward()` until a live pair is found or the end sentinel is
reached, updating `m_last_valid_pair` at every visited slot.  Reading a slot
that does not exist is undefined behavior in C++ and unreachable from
in-range positions; it is modeled as stopping with the current pair. -/
def derefLoop (m : HMap K V) : Nat → IterPos → HPair K V → HPair K V × IterPos
  | 0, p, lastP => (lastP, p)
  | fuel + 1, p, lastP =>
    if lastP.is_valid then (lastP, p)
    else
      let q := fwd m p
      if q.isEnd then (lastP, q)
      else
        match (dom m q.di)[q.pi]? with
        | some e => derefLoop m fuel q e
        | none => (lastP, q)

/-- `iterator::operator*`: at the end sentinel it returns the previously
dereferenced pair if `m_last_valid_pair` is non-null and throws
`std::out_of_range` otherwise; at any other position it loads the current
pair and runs the tombstone-skipping loop. -/
def derefOp (m : HMap K V) (it : IterSt K V) :
    Except String (HPair K V × IterSt K V) :=
  if it.pos.isEnd then
    match it.last with
    | some p => .ok (p, it)
    | none => .error ("Attempt to dereference end() iterator")
  else
    match (dom m it.pos.di)[it.pos.pi]? with
    | some e =>
      let r := derefLoop m (get_total_size m + 1) it.pos e
      .ok (r.1, ⟨r.2, some r.1⟩)
    | none => .error ("out of range")

/-- `iterator::operator++`: a no-op at the end sentinel, else `forward()`. -/
def incOp (m : HMap K V) (it : IterSt K V) : IterSt K V :=
  if it.pos.isEnd then it else ⟨fwd m it.pos, it.last⟩

/-- `begin()`: the end iterator when the total size is zero, else the
iterator constructor that scans for the first nonempty domain (falling back
to position `(0, 0)` if none exists, which cannot happen when the total
size is nonzero). -/
def beginIter (m : HMap K V) : IterSt K V :=
  if get_total_size m ≠ 0 then
    ⟨match findNE m 0 with | some j => ⟨j, 0⟩ | none => ⟨0, 0⟩, none⟩
  else ⟨endPos, none⟩

/-- One range-based `for` loop over the map, as performed by `rehash`:
`it = begin(); while (it != end()) { yield *it; ++it; }`.  The loop
condition compares positions against the end sentinel.  `fuel` bounds the
number of iterations; every theorem below supplies enough fuel for the
loop to run to completion. -/
def runFor (m : HMap K V) : Nat → IterSt K V → List (HPair K V) → List (HPair K V)
  | 0, _, acc => acc.reverse
  | fuel + 1, it, acc =>
    if it.pos.isEnd then acc.reverse
    else
      match derefOp m it with
      | .ok (p, it2) => runFor m fuel (incOp m it2) (p :: acc)
      | .error _ => acc.reverse

/-- The pairs observed by iterating the map from `begin()` to `end()`. -/
def iterYield (m : HMap K V) : List (HPair K V) :=
  runFor m (get_total_size m + 1) (beginIter m) []

/-- `resize` / `rehash`: build a fresh map with the (truncated) new domain
count, iterate this map, re-inserting every pair that passes `is_valid()`
through `no_check_insert`, and move-assign the new map over the old one. -/
def resizeOp (m : HMap K V) (n : Nat) : HMap K V :=
  (iterYield m).foldl
    (fun acc e => if e.is_valid then noCheckInsert hashFn acc e.key e.value else acc)
    (initMap n)

/-- The unconditional re-insertion loop underlying `rehash`: push every
entry of `es` through `no_check_insert` starting from `m0`. -/
def pushList (m0 : HMap K V) (es : List (HPair K V)) : HMap K V :=
  es.foldl (fun acc e => noCheckInsert hashFn acc e.key e.value) m0

/-- The states of `hash_map_128_t` reachable through the public interface
(construction, `insert` / `atomic_insert`, `remove`, `resize`).  The
positivity side conditions exclude the division-by-zero crash that a zero
domain count causes inside `eval_domain_index`. -/
inductive Reachable : HMap K V → Prop
  | init (bc : Nat) (hbc : 0 < bc % 2 ^ 32) : Reachable (initMap bc)
  | insert {m : HMap K V} (k : K) (v : V) :
      Reachable m → Reachable (insertOp hashFn m k v)
  | remove {m : HMap K V} (k : K) :
      Reachable m → Reachable (removeOp hashFn m k)
  | resize {m : HMap K V} (n : Nat) (hn : 0 < n % 2 ^ 32) :
      Reachable m → Reachable (resizeOp hashFn m n)

/-- Basic well-formedness used by the iterator theorems: the table length
matches the domain count, the domain count fits the constructor's
`uint32_t` parameter (hence stays below the `0xffffffff` end sentinel), and
every domain size fits in `size_t`. -/
def WFbase (m : HMap K V) : Prop :=
  m.hash_table.length = m.max_domains ∧
  m.max_domains ≤ ENDI ∧
  ∀ l ∈ m.hash_table, l.length < 2 ^ 64

/-- Live entries store the hash of their own key and sit in the domain that
`eval_domain_index` assigns to that hash. -/
def WFdomains (m : HMap K V) : Prop :=
  ∀ d ∈ List.range m.max_domains, ∀ e ∈ dom m d, e.is_valid = true →
    e.hash_value = hashFn e.key ∧ eval_domain_index m e.hash_value = d

/-- Within a domain, no two live entries share a hash. -/
def WFunique (m : HMap K V) : Prop :=
  ∀ d ∈ List.range m.max_domains,
    List.Pairwise
      (fun a b => ¬(a.is_valid = true ∧ b.is_valid = true ∧ a.hash_value = b.hash_value))
      (dom m d)

/-- Full well-formedness of a map state. -/
def WF (m : HMap K V) : Prop :=
  WFbase m ∧ 0 < m.max_domains ∧ WFdomains hashFn m ∧ WFunique m

instance (m : HMap K V) : Decidable (WFbase m) := by
  unfold WFbase
  exact inferInstance

instance (m : HMap K V) : Decidable (WFdomains hashFn m) := by
  unfold WFdomains
  exact inferInstance

instance (m : HMap K V) : Decidable (WFunique m) := by
  unfold WFunique
  exact inferInstance

instance (m : HMap K V) : Decidable (WF hashFn m) := by
  unfold WF
  exact inferInstance

/-- The slots remaining from iterator position `(d, i)` onward, in
iteration order: the rest of domain `d`, then all later domains. -/
def restFrom (m : HMap K V) (d i : Nat) : List (HPair K V) :=
  (dom m d).drop i ++ (m.hash_table.drop (d + 1)).flatten

/-- An iterator position that addresses an existing slot. -/
def ValidPos (m : HMap K V) (p : IterPos) : Prop :=
  p.di < m.max_domains ∧ p.pi < (dom m p.di).length

/-- Drop the longest all-tombstone prefix of a slot list. -/
def dropUntilLive : List (HPair K V) → List (HPair K V)
  | [] => []
  | e :: es => if e.is_valid then e :: es else dropUntilLive es

/-- The extra element yielded by a full iteration when the final slot of
the table is tombstoned (the stale last-visited pair returned by
`operator*` after its skip loop hits the end sentinel). -/
def tombTail (l : List (HPair K V)) : List (HPair K V) :=
  match l.getLast? with
  | some e => if e.is_valid then [] else [e]
  | none => []

/-- The live entries of the map in iteration order. -/
def liveEntries (m : HMap K V) : List (HPair K V) :=
  (flatTable m).filter (fun e => e.is_valid)

/-- A concrete hash function used to instantiate the generic theorems on
small example states (any deterministic `Key → Hash128` map fits the
`HashFunc` template parameter). -/
def hashEx : Nat → Hash128 := fun k => ⟨k, 0⟩

/-- A one-domain map holding the single live entry `(0, 5)`. -/
def mapA : HMap Nat Nat := insertOp hashEx (initMap 1) 0 5

/-- `mapA` after `remove(0)`: one tombstoned slot, no live entries. -/
def mapB : HMap Nat Nat := removeOp hashEx mapA 0

/-- The iterator obtained on `mapA` by dereferencing `begin()` and then
advancing once: it sits on the end sentinel with a stale
`m_last_valid_pair`. -/
def itStale : IterSt Nat Nat :=
  match derefOp mapA (beginIter mapA) with
  | .ok (_, it) => incOp mapA it
  | .error _ => ⟨endPos, none⟩

/-- A state whose single domain holds `2 ^ 32` entries, exhibiting the
`uint32_t` truncation in the return value of `domain_size`. -/
def mBig : HMap Nat Nat := ⟨1, [List.replicate (2 ^ 32) ⟨0, 0, ⟨0, 0⟩⟩]⟩

/-- A two-domain map with live entries `(1, 10)` and `(2, 20)`. -/
def mapC : HMap Nat Nat := insertOp hashEx (insertOp hashEx (initMap 2) 1 10) 2 20

/-- `mapC` after `remove(1)`: one live entry and one tombstone. -/
def mapD : HMap Nat Nat := removeOp hashEx mapC 1

/-! ## Basic lemmas about the hash type -/

theorem hash_is_valid_iff (h : Hash128) : h.is_valid = true ↔ h ≠ TOMB := by
  rcases h with ⟨a, b⟩
  simp [Hash128.is_valid, Hash128.is_numeric_limit, TOMB, Hash128.mk.injEq]
  tauto

theorem pair_is_valid_iff (e : HPair K V) : e.is_valid = true ↔ e.hash_value ≠ TOMB := by
  unfold HPair.is_valid
  exact hash_is_valid_iff e.hash_value

theorem ltFuel_eq_none (fuel : Nat) (a b : Hash128) : ltFuel fuel a b = none := by
  induction fuel with
  | zero => rfl
  | succ n ih => exact ih

/-! ## List helper lemmas -/

theorem modifyIdx_length {α : Type} (l : List α) (i : Nat) (f : α → α) :
    (modifyIdx l i f).length = l.length := by
  induction l generalizing i with
  | nil => rfl
  | cons x xs ih =>
    cases i with
    | zero => rfl
    | succ n => simp [modifyIdx, ih]

theorem modifyIdx_getElem? {α : Type} (l : List α) (i : Nat) (f : α → α) (j : Nat) :
    (modifyIdx l i f)[j]? = if j = i then (l[j]?).map f else l[j]? := by
  induction l generalizing i j with
  | nil => simp [modifyIdx]
  | cons x xs ih =>
    cases i with
    | zero =>
      cases j with
      | zero => simp [modifyIdx]
      | succ jj => simp [modifyIdx]
    | succ ii =>
      cases j with
      | zero => simp [modifyIdx]
      | succ jj => simpa [modifyIdx] using ih ii jj

theorem scanIdx_eq_none_iff (l : List (HPair K V)) (h : Hash128) :
    scanIdx l h = none ↔ ∀ e ∈ l, e.hash_value ≠ h := by
  induction l with
  | nil => simp [scanIdx]
  | cons e es ih =>
    by_cases he : e.hash_value = h
    · simp [scanIdx, he]
    · simp [scanIdx, he, ih]

theorem scanIdx_isSome_iff (l : List (HPair K V)) (h : Hash128) :
    (scanIdx l h).isSome = true ↔ ∃ e ∈ l, e.hash_value = h := by
  constructor
  · intro hs
    by_contra hno
    push_neg at hno
    have hnone : scanIdx l h = none := (scanIdx_eq_none_iff l h).mpr hno
    rw [hnone] at hs
    simp at hs
  · intro ⟨e, hmem, hh⟩
    cases hs : scanIdx l h with
    | some i => simp
    | none => exact absurd hh ((scanIdx_eq_none_iff l h).mp hs e hmem)

theorem scanIdx_eq_some_getElem (l : List (HPair K V)) (h : Hash128) (i : Nat) :
    scanIdx l h = some i → ∃ e, l[i]? = some e ∧ e.hash_value = h := by
  induction l generalizing i with
  | nil => simp [scanIdx]
  | cons e es ih =>
    by_cases he : e.hash_value = h
    · simp only [scanIdx, he, if_pos rfl]
      intro hsome
      cases hsome
      exact ⟨e, by simp, he⟩
    · simp only [scanIdx, if_neg he]
      intro hsome
      rcases Option.map_eq_some'.mp hsome with ⟨i0, hscan, hi⟩
      subst hi
      rcases ih i0 hscan with ⟨e2, hget, hh⟩
      exact ⟨e2, by simpa using hget, hh⟩

theorem scanIdx_modifyIdx (l : List (HPair K V)) (i : Nat)
    (f : HPair K V → HPair K V) (h : Hash128)
    (hf : ∀ e, (f e).hash_value = e.hash_value) :
    scanIdx (modifyIdx l i f) h = scanIdx l h := by
  induction l generalizing i with
  | nil => rfl
  | cons e es ih =>
    cases i with
    | zero => simp [modifyIdx, scanIdx, hf e]
    | succ ii => simp [modifyIdx, scanIdx, ih ii]

/-! ## Lemmas about domains and sizes -/

theorem setDomain_max (m : HMap K V) (d : Nat) (l : List (HPair K V)) :
    (setDomain m d l).max_domains = m.max_domains := rfl

theorem setDomain_len (m : HMap K V) (d : Nat) (l : List (HPair K V)) :
    (setDomain m d l).hash_table.length = m.hash_table.length := by
  simp [setDomain]

theorem dom_setDomain (m : HMap K V) (d : Nat) (l : List (HPair K V)) (d2 : Nat) :
    dom (setDomain m d l) d2 =
      if d2 = d ∧ d < m.hash_table.length then l else dom m d2 := by
  unfold dom setDomain
  by_cases hd : d < m.hash_table.length
  · by_cases he : d2 = d
    · subst he
      simp [hd, List.getD_eq_getElem?_getD, List.getElem?_set_eq_of_lt _ hd]
    · simp [he, List.getD_eq_getElem?_getD, List.getElem?_set_ne (fun hc => he hc.symm)]
  · rw [List.set_eq_of_length_le (by omega)]
    simp [hd]

theorem dom_ne_nil_lt (m : HMap K V) (d : Nat) (hne : dom m d ≠ []) :
    d < m.hash_table.length := by
  by_contra hge
  apply hne
  unfold dom
  rw [List.getD_eq_getElem?_getD, List.getElem?_eq_none (by omega)]
  rfl

theorem eval_domain_index_congr (m1 m2 : HMap K V) (h : Hash128)
    (hmax : m1.max_domains = m2.max_domains) :
    eval_domain_index m1 h = eval_domain_index m2 h := by
  unfold eval_domain_index
  rw [hmax]

theorem eval_domain_index_lt (m : HMap K V) (h : Hash128)
    (h0 : 0 < m.max_domains) : eval_domain_index m h < m.max_domains :=
  Nat.mod_lt _ h0

theorem get_total_size_congr (m1 m2 : HMap K V)
    (hmax : m1.max_domains = m2.max_domains)
    (hdom : ∀ d, (dom m1 d).length = (dom m2 d).length) :
    get_total_size m1 = get_total_size m2 := by
  unfold get_total_size
  rw [hmax]
  have key : ∀ (L : List Nat) (a : Nat),
      L.foldl (fun acc i => acc + (dom m1 i).length) a =
      L.foldl (fun acc i => acc + (dom m2 i).length) a := by
    intro L
    induction L with
    | nil => intro a; rfl
    | cons x xs ih => intro a; simp only [List.foldl_cons, hdom x, ih]
  exact key _ 0

theorem range_foldl_len {α : Type} (L : List (List α)) (s : Nat) :
    (List.range L.length).foldl (fun acc i => acc + (L.getD i []).length) s =
      s + L.flatten.length := by
  induction L generalizing s with
  | nil => simp
  | cons x xs ih =>
    rw [List.length_cons, List.range_succ_eq_map]
    simp only [List.foldl_cons, List.foldl_map, List.getD_cons_succ, List.getD_cons_zero]
    rw [ih]
    simp [Nat.add_assoc]

theorem get_total_size_eq_flatten (m : HMap K V)
    (hl : m.hash_table.length = m.max_domains) :
    get_total_size m = (flatTable m).length := by
  unfold get_total_size flatTable
  simp only [dom]
  rw [← hl]
  simpa using range_foldl_len m.hash_table 0

/-! ## Unfolding lemmas for the operations -/

theorem insertOp_eq_found (m : HMap K V) (k : K) (v : V) (i : Nat)
    (hscan : scanIdx (dom m (eval_domain_index m (hashFn k))) (hashFn k) = some i) :
    insertOp hashFn m k v =
      setDomain m (eval_domain_index m (hashFn k))
        (modifyIdx (dom m (eval_domain_index m (hashFn k))) i
          (fun e => { e with value := v })) := by
  simp only [insertOp]
  rw [hscan]

theorem removeOp_eq_found (m : HMap K V) (k : K) (i : Nat)
    (hscan : scanIdx (dom m (eval_domain_index m (hashFn k))) (hashFn k) = some i) :
    removeOp hashFn m k =
      setDomain m (eval_domain_index m (hashFn k))
        (modifyIdx (dom m (eval_domain_index m (hashFn k))) i HPair.invalidate) := by
  simp only [removeOp]
  rw [hscan]

theorem removeOp_eq_noop (m : HMap K V) (k : K)
    (hscan : scanIdx (dom m (eval_domain_index m (hashFn k))) (hashFn k) = none) :
    removeOp hashFn m k = m := by
  simp only [removeOp]
  rw [hscan]

theorem getOp_eq_found (m : HMap K V) (k : K) (i : Nat)
    (hscan : scanIdx (dom m (eval_domain_index m (hashFn k))) (hashFn k) = some i) :
    getOp hashFn m k =
      ((dom m (eval_domain_index m (hashFn k)))[i]?).map HPair.value := by
  simp only [getOp]
  rw [hscan]

theorem getOp_eq_none (m : HMap K V) (k : K)
    (hscan : scanIdx (dom m (eval_domain_index m (hashFn k))) (hashFn k) = none) :
    getOp hashFn m k = none := by
  simp only [getOp]
  rw [hscan]

theorem insertOp_dims (m : HMap K V) (k : K) (v : V) :
    (insertOp hashFn m k v).max_domains = m.max_domains ∧
    (insertOp hashFn m k v).hash_table.length = m.hash_table.length := by
  cases hscan : scanIdx (dom m (eval_domain_index m (hashFn k))) (hashFn k) with
  | some i => rw [insertOp_eq_found hashFn m k v i hscan]; exact ⟨rfl, setDomain_len ..⟩
  | none =>
    simp only [insertOp]
    rw [hscan]
    exact ⟨rfl, setDomain_len ..⟩

theorem removeOp_dims (m : HMap K V) (k : K) :
    (removeOp hashFn m k).max_domains = m.max_domains ∧
    (removeOp hashFn m k).hash_table.length = m.hash_table.length := by
  cases hscan : scanIdx (dom m (eval_domain_index m (hashFn k))) (hashFn k) with
  | some i => rw [removeOp_eq_found hashFn m k i hscan]; exact ⟨rfl, setDomain_len ..⟩
  | none => rw [removeOp_eq_noop hashFn m k hscan]; exact ⟨rfl, rfl⟩

theorem resize_foldl_dims (es : List (HPair K V)) (m0 : HMap K V) :
    (es.foldl
      (fun acc e => if e.is_valid then noCheckInsert hashFn acc e.key e.value else acc)
      m0).max_domains = m0.max_domains ∧
    (es.foldl
      (fun acc e => if e.is_valid then noCheckInsert hashFn acc e.key e.value else acc)
      m0).hash_table.length = m0.hash_table.length := by
  induction es generalizing m0 with
  | nil => exact ⟨rfl, rfl⟩
  | cons e es ih =>
    simp only [List.foldl_cons]
    rcases ih (if e.is_valid then noCheckInsert hashFn m0 e.key e.value else m0) with ⟨h1, h2⟩
    constructor
    · rw [h1]
      by_cases hv : e.is_valid <;> simp [hv, noCheckInsert, setDomain]
    · rw [h2]
      by_cases hv : e.is_valid <;> simp [hv, noCheckInsert, setDomain]

theorem reachable_table_length (m : HMap K V) (h : Reachable hashFn m) :
    m.hash_table.length = m.max_domains := by
  induction h with
  | init bc hbc => simp [initMap]
  | insert k v _ ih =>
    rcases insertOp_dims hashFn _ k v with ⟨h1, h2⟩
    rw [h1, h2]
    exact ih
  | remove k _ ih =>
    rcases removeOp_dims hashFn _ k with ⟨h1, h2⟩
    rw [h1, h2]
    exact ih
  | resize n hn _ _ =>
    unfold resizeOp
    rcases resize_foldl_dims hashFn _ (initMap n) with ⟨h1, h2⟩
    rw [h1, h2]
    simp [initMap]

/-! ## Claim C7: the ordering comparisons -/

/-- C7 (code bug): `operator<` is written `return (*this < hash)` and calls
itself unconditionally, so it never returns a value (for any amount of
fuel the evaluation is still `none`); `operator>` falls off the end of the
function whenever the high halves are equal and `id1` is not greater, both
on equal inputs and on a strictly smaller left argument.  This contradicts
the claimed total lexicographic comparison. -/
theorem comparison_operators_code_bug :
    (∀ fuel, ltFuel fuel ⟨0, 0⟩ ⟨1, 0⟩ = none) ∧
    gtOp ⟨5, 5⟩ ⟨5, 5⟩ = none ∧
    gtOp ⟨5, 5⟩ ⟨5, 6⟩ = none ∧
    gtOp ⟨5, 7⟩ ⟨5, 6⟩ = some true ∧
    gtOp ⟨4, 0⟩ ⟨5, 9⟩ = some false := by
  refine ⟨fun fuel => ltFuel_eq_none fuel _ _, ?_, ?_, ?_, ?_⟩ <;> decide

/-! ## Claim C8: symmetry of the two-argument constructor -/

/-- C8: the two-argument `_128_BIT_HASH_` constructor stores the smaller
argument in half 0 and the larger in half 1, hence is symmetric in its
arguments. -/
theorem mkHash2_symmetric (a b : Nat) : mkHash2 a b = mkHash2 b a := by
  unfold mkHash2
  rcases Nat.lt_trichotomy a b with h | h | h
  · rw [if_pos h, if_neg (Nat.lt_asymm h)]
  · subst h
    rfl
  · rw [if_neg (Nat.lt_asymm h), if_pos h]

/-! ## Claim C10: 32-bit field update and frame -/

/-- C10: for a field index below 4 and a 32-bit value, `set_32_bit_field`
makes `operator[]` read back the written value on that field and leaves the
other three 32-bit fields unchanged. -/
theorem set_32_bit_field_spec (h : Hash128) (i v : Nat) (hi : i < 4)
    (hv : v < 2 ^ 32) :
    (h.set_32_bit_field i v).field32 i = v ∧
    ∀ j, j < 4 → j ≠ i → (h.set_32_bit_field i v).field32 j = h.field32 j := by
  constructor
  · interval_cases i <;> simp [Hash128.set_32_bit_field, Hash128.field32] <;> omega
  · intro j hj hne
    interval_cases i <;> interval_cases j <;>
      simp_all [Hash128.set_32_bit_field, Hash128.field32] <;> omega

/-- Witness for C10 at a concrete hash, field index and value. -/
theorem set_32_bit_field_spec_witness :
    ((⟨5, 6⟩ : Hash128).set_32_bit_field 1 7).field32 1 = 7 ∧
    ((⟨5, 6⟩ : Hash128).set_32_bit_field 1 7).field32 2 = (⟨5, 6⟩ : Hash128).field32 2 := by
  have h := set_32_bit_field_spec ⟨5, 6⟩ 1 7 (by decide) (by decide)
  exact ⟨h.1, h.2 2 (by decide) (by decide)⟩

/-! ## Claim C9: totality of domain_size -/

/-- C9 (amended): `domain_size(i)` is total; out of range it returns 0
without touching the table, in range `get_domain_size` returns the exact
backing-sequence length while `domain_size` reduces it modulo `2 ^ 32`
through its `uint32_t` return type. -/
theorem domain_size_total_spec (m : HMap K V) (i : Nat) :
    (m.max_domains ≤ i → get_domain_size m i = 0 ∧ domain_size m i = 0) ∧
    ((hi : i < m.max_domains) → (hl : m.hash_table.length = m.max_domains) →
      get_domain_size m i = (m.hash_table.get ⟨i, by omega⟩).length ∧
      domain_size m i = (m.hash_table.get ⟨i, by omega⟩).length % 2 ^ 32) := by
  constructor
  · intro hle
    constructor
    · simp [get_domain_size, hle]
    · simp [domain_size, get_domain_size, hle]
  · intro hi hl
    have hlt : i < m.hash_table.length := by omega
    have hd : dom m i = m.hash_table.get ⟨i, hlt⟩ := by
      simp [dom, List.getD_eq_getElem?_getD, List.getElem?_eq_getElem hlt,
        List.get_eq_getElem]
    constructor
    · rw [get_domain_size, if_neg (by omega), hd]
    · rw [domain_size, get_domain_size, if_neg (by omega), hd]

/-- Witness for C9 applied in range (on `mapA`) and out of range. -/
theorem domain_size_total_spec_witness :
    get_domain_size mapA 0 = (mapA.hash_table.get ⟨0, by decide⟩).length ∧
    get_domain_size mapA 5 = 0 := by
  have h0 := domain_size_total_spec mapA 0
  have h5 := domain_size_total_spec mapA 5
  exact ⟨(h0.2 (by decide) (by decide)).1, (h5.1 (by decide)).1⟩

/-- C9 counterexample to the unamended claim: a one-domain map whose domain
holds `2 ^ 32` entries; `domain_size` returns the length truncated through
`uint32_t`, namely 0, not the length. -/
theorem domain_size_truncation_counterexample :
    domain_size mBig 0 = 0 ∧ (dom mBig 0).length = 2 ^ 32 ∧
    0 < mBig.max_domains := by
  have hmax : mBig.max_domains = 1 := rfl
  have hdom : dom mBig 0 = List.replicate (2 ^ 32) ⟨0, 0, ⟨0, 0⟩⟩ := rfl
  have hlen : (dom mBig 0).length = 2 ^ 32 := by
    rw [hdom, List.length_replicate]
  refine ⟨?_, hlen, by rw [hmax]; exact Nat.one_pos⟩
  rw [domain_size, get_domain_size, if_neg (by rw [hmax]; omega), hlen, Nat.mod_self]

/-! ## Claim C5: re-inserting an existing key -/

/-- C5: when an entry with the key's hash is already present and live,
`insert` overwrites that entry's value in place: no domain grows, `size()`
is unchanged, and a subsequent `get` returns the new value. -/
theorem insert_existing_updates_in_place (m : HMap K V) (k : K) (v : V)
    (hpresent : ∃ e ∈ dom m (eval_domain_index m (hashFn k)),
      e.hash_value = hashFn k ∧ e.is_valid = true) :
    sizeOp (insertOp hashFn m k v) = sizeOp m ∧
    (∀ d, (dom (insertOp hashFn m k v) d).length = (dom m d).length) ∧
    buckets_count (insertOp hashFn m k v) = buckets_count m ∧
    getOp hashFn (insertOp hashFn m k v) k = some v := by
  obtain ⟨e, hmem, hhash, _⟩ := hpresent
  have hsome : (scanIdx (dom m (eval_domain_index m (hashFn k))) (hashFn k)).isSome :=
    (scanIdx_isSome_iff _ _).mpr ⟨e, hmem, hhash⟩
  obtain ⟨i, hscan⟩ := Option.isSome_iff_exists.mp hsome
  have hne : dom m (eval_domain_index m (hashFn k)) ≠ [] := by
    intro hnil
    rw [hnil] at hmem
    cases hmem
  have hdlt := dom_ne_nil_lt m _ hne
  have hins := insertOp_eq_found hashFn m k v i hscan
  have hmax : (insertOp hashFn m k v).max_domains = m.max_domains :=
    (insertOp_dims hashFn m k v).1
  have hdoms : ∀ d, dom (insertOp hashFn m k v) d =
      if d = eval_domain_index m (hashFn k) ∧
          eval_domain_index m (hashFn k) < m.hash_table.length then
        modifyIdx (dom m (eval_domain_index m (hashFn k))) i
          (fun e => { e with value := v })
      else dom m d := by
    intro d
    rw [hins, dom_setDomain]
  have hlen : ∀ d, (dom (insertOp hashFn m k v) d).length = (dom m d).length := by
    intro d
    rw [hdoms d]
    by_cases hc : d = eval_domain_index m (hashFn k) ∧
        eval_domain_index m (hashFn k) < m.hash_table.length
    · rw [if_pos hc, modifyIdx_length, hc.1]
    · rw [if_neg hc]
  refine ⟨?_, hlen, ?_, ?_⟩
  · unfold sizeOp
    rw [get_total_size_congr (insertOp hashFn m k v) m hmax hlen]
  · unfold buckets_count get_domain_count
    rw [hmax]
  · have hscan2 : scanIdx (dom (insertOp hashFn m k v)
        (eval_domain_index (insertOp hashFn m k v) (hashFn k))) (hashFn k) = some i := by
      rw [eval_domain_index_congr _ m _ hmax, hdoms _, if_pos ⟨rfl, hdlt⟩,
        scanIdx_modifyIdx]
      · exact hscan
      · intro e2
        rfl
    rw [getOp_eq_found hashFn _ k i hscan2,
      eval_domain_index_congr _ m _ hmax, hdoms _, if_pos ⟨rfl, hdlt⟩,
      modifyIdx_getElem?, if_pos rfl]
    rcases scanIdx_eq_some_getElem _ _ _ hscan with ⟨e0, hget, _⟩
    rw [hget]
    rfl

/-- Witness for C5: re-inserting key 1 (value 99) into `mapC`. -/
theorem insert_existing_updates_in_place_witness :
    sizeOp (insertOp hashEx mapC 1 99) = sizeOp mapC ∧
    getOp hashEx (insertOp hashEx mapC 1 99) 1 = some 99 := by
  have h := insert_existing_updates_in_place hashEx mapC 1 99 (by decide)
  exact ⟨h.1, h.2.2.2⟩

/-! ## Claim C1: what size() counts -/

/-- C1 (amended): on every reachable state, `size()` equals the total
number of slots — live entries plus tombstoned entries — reduced modulo
`2 ^ 32` by the `uint32_t` return type; tombstoned entries are counted. -/
theorem size_counts_tombstones (m : HMap K V) (h : Reachable hashFn m) :
    sizeOp m = (liveCount m + tombCount m) % 2 ^ 32 := by
  have hl := reachable_table_length hashFn m h
  unfold sizeOp liveCount tombCount
  rw [get_total_size_eq_flatten m hl]
  have heq := List.length_eq_length_filter_add (l := flatTable m)
    (fun e => e.is_valid)
  rw [heq]

/-- Witness for C1 (amended) on the reachable state `mapB`. -/
theorem size_counts_tombstones_witness :
    Reachable hashEx mapB ∧ sizeOp mapB = (liveCount mapB + tombCount mapB) % 2 ^ 32 := by
  have hr : Reachable hashEx mapB :=
    Reachable.remove 0 (Reachable.insert 0 5 (Reachable.init 1 (by decide)))
  exact ⟨hr, size_counts_tombstones hashEx mapB hr⟩

/-- C1 counterexample to the unamended claim: `mapB` is reachable
(insert key 0 then remove it); its single slot is tombstoned, so the live
count is 0 while `size()` still reports 1. -/
theorem size_ne_live_count_counterexample :
    Reachable hashEx mapB ∧ sizeOp mapB = 1 ∧ liveCount mapB = 0 := by
  refine ⟨Reachable.remove 0 (Reachable.insert 0 5 (Reachable.init 1 (by decide))), ?_, ?_⟩ <;>
    decide

/-! ## Claim C4: remove tombstones in place -/

/-- C4: removing a key whose entry is live overwrites that entry's hash
with the tombstone sentinel in place (same slot index, same domain
lengths); afterwards `contains` is false and `get` is empty; removing
again, or removing a key whose hash is absent, is a no-op. -/
theorem remove_tombstones_spec (m : HMap K V) (k : K)
    (hwf : WF hashFn m)
    (hlive : ∃ e ∈ dom m (eval_domain_index m (hashFn k)),
      e.hash_value = hashFn k ∧ e.is_valid = true) :
    (∃ i e, scanIdx (dom m (eval_domain_index m (hashFn k))) (hashFn k) = some i ∧
      (dom m (eval_domain_index m (hashFn k)))[i]? = some e ∧
      (dom (removeOp hashFn m k) (eval_domain_index m (hashFn k)))[i]? =
        some e.invalidate) ∧
    (∀ d, (dom (removeOp hashFn m k) d).length = (dom m d).length) ∧
    containsOp hashFn (removeOp hashFn m k) k = false ∧
    getOp hashFn (removeOp hashFn m k) k = none ∧
    removeOp hashFn (removeOp hashFn m k) k = removeOp hashFn m k ∧
    ∀ k2, scanIdx (dom m (eval_domain_index m (hashFn k2))) (hashFn k2) = none →
      removeOp hashFn m k2 = m := by
  rcases hwf with ⟨-, hpos, -, huniq⟩
  obtain ⟨e, hmem, hhash, hvalid⟩ := hlive
  have hTOMB : hashFn k ≠ TOMB := by
    rw [← hhash]
    exact (pair_is_valid_iff e).mp hvalid
  have hsome : (scanIdx (dom m (eval_domain_index m (hashFn k))) (hashFn k)).isSome :=
    (scanIdx_isSome_iff _ _).mpr ⟨e, hmem, hhash⟩
  obtain ⟨i, hscan⟩ := Option.isSome_iff_exists.mp hsome
  have hne : dom m (eval_domain_index m (hashFn k)) ≠ [] := by
    intro hnil
    rw [hnil] at hmem
    cases hmem
  have hdlt := dom_ne_nil_lt m _ hne
  have hrm := removeOp_eq_found hashFn m k i hscan
  have hmax : (removeOp hashFn m k).max_domains = m.max_domains :=
    (removeOp_dims hashFn m k).1
  have hdoms : ∀ d, dom (removeOp hashFn m k) d =
      if d = eval_domain_index m (hashFn k) ∧
          eval_domain_index m (hashFn k) < m.hash_table.length then
        modifyIdx (dom m (eval_domain_index m (hashFn k))) i HPair.invalidate
      else dom m d := by
    intro d
    rw [hrm, dom_setDomain]
  obtain ⟨e0, hget0, hh0⟩ := scanIdx_eq_some_getElem _ _ _ hscan
  have hpair := huniq (eval_domain_index m (hashFn k))
    (List.mem_range.mpr (eval_domain_index_lt m _ hpos))
  have hnomatch : ∀ e2 ∈ modifyIdx (dom m (eval_domain_index m (hashFn k))) i
      HPair.invalidate, e2.hash_value ≠ hashFn k := by
    intro e2 hmem2
    obtain ⟨j, hj⟩ := List.mem_iff_getElem?.mp hmem2
    rw [modifyIdx_getElem?] at hj
    by_cases hji : j = i
    · rw [if_pos hji, hji, hget0] at hj
      cases hj
      intro hcon
      exact hTOMB (by simpa [HPair.invalidate, Hash128.invalidate, TOMB] using hcon.symm)
    · rw [if_neg hji] at hj
      intro hcon
      obtain ⟨hjlt, hjget⟩ := List.getElem?_eq_some.mp hj
      obtain ⟨hilt, higet⟩ := List.getElem?_eq_some.mp hget0
      have hv2 : e2.is_valid = true := (pair_is_valid_iff e2).mpr (hcon ▸ hTOMB)
      have hv0 : e0.is_valid = true := (pair_is_valid_iff e0).mpr (hh0 ▸ hTOMB)
      rcases Nat.lt_or_ge j i with hlt | hge
      · have := (List.pairwise_iff_getElem.mp hpair) j i hjlt hilt hlt
        rw [hjget, higet] at this
        exact this ⟨hv2, hv0, by rw [hcon, hh0]⟩
      · have hij : i < j := by omega
        have := (List.pairwise_iff_getElem.mp hpair) i j hilt hjlt hij
        rw [hjget, higet] at this
        exact this ⟨hv0, hv2, by rw [hcon, hh0]⟩
  have hscan2 : scanIdx (dom (removeOp hashFn m k)
      (eval_domain_index (removeOp hashFn m k) (hashFn k))) (hashFn k) = none := by
    rw [eval_domain_index_congr _ m _ hmax, hdoms _, if_pos ⟨rfl, hdlt⟩]
    exact (scanIdx_eq_none_iff _ _).mpr hnomatch
  refine ⟨?_, ?_, ?_, ?_, ?_, ?_⟩
  · refine ⟨i, e0, hscan, hget0, ?_⟩
    rw [hdoms _, if_pos ⟨rfl, hdlt⟩, modifyIdx_getElem?, if_pos rfl, hget0]
    rfl
  · intro d
    rw [hdoms d]
    by_cases hc : d = eval_domain_index m (hashFn k) ∧
        eval_domain_index m (hashFn k) < m.hash_table.length
    · rw [if_pos hc, modifyIdx_length, hc.1]
    · rw [if_neg hc]
  · unfold containsOp
    rw [hscan2]
    rfl
  · exact getOp_eq_none hashFn _ k hscan2
  · exact removeOp_eq_noop hashFn _ k hscan2
  · intro k2 h2
    exact removeOp_eq_noop hashFn m k2 h2

/-- Witness for C4: removing key 1 from `mapC`. -/
theorem remove_tombstones_spec_witness :
    WF hashEx mapC ∧
    containsOp hashEx (removeOp hashEx mapC 1) 1 = false ∧
    getOp hashEx (removeOp hashEx mapC 1) 1 = none ∧
    removeOp hashEx (removeOp hashEx mapC 1) 1 = removeOp hashEx mapC 1 := by
  have hwf : WF hashEx mapC := by decide
  have h := remove_tombstones_spec hashEx mapC 1 hwf (by decide)
  exact ⟨hwf, h.2.2.1, h.2.2.2.1, h.2.2.2.2.1⟩

/-! ## Claim C6: dereferencing the end sentinel -/

theorem endPos_isEnd : endPos.isEnd = true := by decide

/-- C6 (amended): dereferencing an iterator at the end sentinel throws the
`out_of_range` error only when `m_last_valid_pair` is null (as it is for a
freshly constructed `end()`); when a pair was dereferenced earlier, the
stale pair is returned silently instead. -/
theorem deref_end_spec (m : HMap K V) (it : IterSt K V) (hend : it.pos = endPos) :
    (it.last = none →
      derefOp m it = .error ("Attempt to dereference end() iterator")) ∧
    ∀ p, it.last = some p → derefOp m it = .ok (p, it) := by
  constructor
  · intro hl
    simp [derefOp, hend, endPos_isEnd, hl]
  · intro p hl
    simp [derefOp, hend, endPos_isEnd, hl]

/-- Witness for C6 (amended): `begin()` of an empty map is the end iterator
with a null last pair, and dereferencing it throws. -/
theorem deref_end_spec_witness :
    (beginIter (initMap 1 : HMap Nat Nat)).pos = endPos ∧
    derefOp (initMap 1) (beginIter (initMap 1 : HMap Nat Nat)) =
      .error ("Attempt to dereference end() iterator") := by
  have hpos : (beginIter (initMap 1 : HMap Nat Nat)).pos = endPos := by decide
  exact ⟨hpos, (deref_end_spec (initMap 1) _ hpos).1 (by decide)⟩

/-- C6 counterexample to the unamended claim: on `mapA`, dereferencing
`begin()` and advancing once lands on the end sentinel; dereferencing there
silently returns the stale pair `(0, 5)` instead of failing. -/
theorem deref_end_stale_counterexample :
    itStale.pos = endPos ∧
    derefOp mapA itStale = .ok (⟨0, 5, ⟨0, 0⟩⟩, itStale) := by
  constructor
  · decide
  · rfl

/-! ## Iterator lemmas: domain search and flattened views -/

theorem findNEAux_spec (m : HMap K V) :
    ∀ (fuel s : Nat), m.max_domains - s = fuel →
      (findNEAux m fuel s = none ∧
        ∀ j, s ≤ j → j < m.max_domains → dom m j = []) ∨
      (∃ j, findNEAux m fuel s = some j ∧ s ≤ j ∧ j < m.max_domains ∧
        dom m j ≠ [] ∧ ∀ j2, s ≤ j2 → j2 < j → dom m j2 = []) := by
  intro fuel
  induction fuel with
  | zero =>
    intro s hs
    left
    refine ⟨rfl, ?_⟩
    intro j h1 h2
    omega
  | succ n ih =>
    intro s hs
    have hslt : s < m.max_domains := by omega
    by_cases hdom : 0 < (dom m s).length
    · right
      refine ⟨s, ?_, Nat.le_refl s, hslt, ?_, ?_⟩
      · simp [findNEAux, hslt, hdom]
      · intro hnil
        rw [hnil] at hdom
        simp at hdom
      · intro j2 h1 h2
        omega
    · have hn : m.max_domains - (s + 1) = n := by omega
      have hnil : dom m s = [] := by
        rw [← List.length_eq_zero]
        omega
      rcases ih (s + 1) hn with ⟨hnone, hall⟩ | ⟨j, hj, h1, h2, h3, h4⟩
      · left
        constructor
        · simp [findNEAux, hslt, hdom, hnone]
        · intro j hj1 hj2
          rcases Nat.eq_or_lt_of_le hj1 with he | hl
          · rw [← he]; exact hnil
          · exact hall j hl hj2
      · right
        refine ⟨j, ?_, by omega, h2, h3, ?_⟩
        · simp [findNEAux, hslt, hdom, hj]
        · intro j2 hj1 hj2
          rcases Nat.eq_or_lt_of_le hj1 with he | hl
          · rw [← he]; exact hnil
          · exact h4 j2 hl hj2

theorem findNE_spec (m : HMap K V) (s : Nat) :
    (findNE m s = none ∧ ∀ j, s ≤ j → j < m.max_domains → dom m j = []) ∨
    (∃ j, findNE m s = some j ∧ s ≤ j ∧ j < m.max_domains ∧ dom m j ≠ [] ∧
      ∀ j2, s ≤ j2 → j2 < j → dom m j2 = []) :=
  findNEAux_spec m (m.max_domains - s) s rfl

theorem drop_flatten_cons {α : Type} (L : List (List α)) (s : Nat)
    (hs : s < L.length) :
    (L.drop s).flatten = L.getD s [] ++ (L.drop (s + 1)).flatten := by
  rw [List.drop_eq_getElem_cons hs, List.flatten_cons, List.getD_eq_getElem?_getD,
    List.getElem?_eq_getElem hs]
  rfl

theorem dom_flatten_skip (m : HMap K V) (hl : m.hash_table.length = m.max_domains) :
    ∀ (fuel s : Nat), m.max_domains - s = fuel →
      (∀ j, s ≤ j → j < m.max_domains → dom m j = []) →
      (m.hash_table.drop s).flatten = [] := by
  intro fuel
  induction fuel with
  | zero =>
    intro s hs _
    rw [List.drop_eq_nil_of_le (by omega)]
    rfl
  | succ n ih =>
    intro s hs hall
    have hslt : s < m.hash_table.length := by omega
    rw [drop_flatten_cons m.hash_table s hslt,
      show m.hash_table.getD s [] = dom m s from rfl,
      hall s (Nat.le_refl s) (by omega), List.nil_append]
    exact ih (s + 1) (by omega) (fun j ha hb => hall j (by omega) hb)

theorem drop_flatten_eq_of_empty (m : HMap K V)
    (hl : m.hash_table.length = m.max_domains) :
    ∀ (fuel s j : Nat), j - s = fuel → s ≤ j → j ≤ m.max_domains →
      (∀ j2, s ≤ j2 → j2 < j → dom m j2 = []) →
      (m.hash_table.drop s).flatten = (m.hash_table.drop j).flatten := by
  intro fuel
  induction fuel with
  | zero =>
    intro s j h1 h2 h3 h4
    have hsj : s = j := by omega
    rw [hsj]
  | succ n ih =>
    intro s j h1 h2 h3 h4
    have hslt : s < m.hash_table.length := by omega
    rw [drop_flatten_cons m.hash_table s hslt,
      show m.hash_table.getD s [] = dom m s from rfl,
      h4 s (Nat.le_refl s) (by omega), List.nil_append]
    exact ih (s + 1) j (by omega) (by omega) h3 (fun j2 ha hb => h4 j2 (by omega) hb)

theorem findNE_decomp (m : HMap K V) (hl : m.hash_table.length = m.max_domains)
    (s j : Nat) (hj : findNE m s = some j) :
    s ≤ j ∧ j < m.max_domains ∧ dom m j ≠ [] ∧
    (m.hash_table.drop s).flatten = dom m j ++ (m.hash_table.drop (j + 1)).flatten := by
  rcases findNE_spec m s with ⟨hnone, _⟩ | ⟨j2, hj2, h1, h2, h3, h4⟩
  · rw [hnone] at hj
    cases hj
  · rw [hj2] at hj
    injection hj with hjj
    subst hjj
    refine ⟨h1, h2, h3, ?_⟩
    rw [drop_flatten_eq_of_empty m hl (j2 - s) s j2 rfl h1 (by omega) h4,
      drop_flatten_cons m.hash_table j2 (by omega)]
    rfl

/-! ## Iterator lemmas: positions -/

theorem restFrom_cons (m : HMap K V) (p : IterPos) (hvp : ValidPos m p) :
    restFrom m p.di p.pi =
      (dom m p.di).get ⟨p.pi, hvp.2⟩ :: restFrom m p.di (p.pi + 1) := by
  unfold restFrom
  rw [List.drop_eq_getElem_cons hvp.2]
  rfl

theorem validPos_isEnd_false (m : HMap K V) (p : IterPos)
    (hd : m.max_domains ≤ ENDI) (hvp : ValidPos m p) : p.isEnd = false := by
  unfold IterPos.isEnd
  simp only [decide_eq_false_iff_not]
  intro h
  obtain ⟨h1, -⟩ := h
  have h2 := hvp.1
  omega

theorem dom_mem_table (m : HMap K V) (d : Nat) (hd : d < m.hash_table.length) :
    dom m d ∈ m.hash_table := by
  unfold dom
  rw [List.getD_eq_getElem?_getD, List.getElem?_eq_getElem hd]
  exact List.getElem_mem hd

theorem sub1u64_eq (n : Nat) (h1 : 1 ≤ n) (h2 : n < 2 ^ 64) :
    sub1u64 n = n - 1 := by
  unfold sub1u64
  omega

theorem validPos_getElem? (m : HMap K V) (p : IterPos) (hvp : ValidPos m p) :
    (dom m p.di)[p.pi]? = some ((dom m p.di).get ⟨p.pi, hvp.2⟩) := by
  rw [List.getElem?_eq_getElem hvp.2]
  rfl

theorem fwd_end_or_valid (m : HMap K V) (hwf : WFbase m) (p : IterPos)
    (hvp : ValidPos m p) :
    (restFrom m p.di (p.pi + 1) = [] ∧ fwd m p = endPos) ∨
    (ValidPos m (fwd m p) ∧
      restFrom m (fwd m p).di (fwd m p).pi = restFrom m p.di (p.pi + 1)) := by
  obtain ⟨hl, hd, hs⟩ := hwf
  have hdi : p.di < m.hash_table.length := by
    have := hvp.1
    omega
  have hlen1 : 1 ≤ (dom m p.di).length := by
    have := hvp.2
    omega
  have hlen2 : (dom m p.di).length < 2 ^ 64 := hs _ (dom_mem_table m p.di hdi)
  have hend : p.isEnd = false := validPos_isEnd_false m p hd hvp
  by_cases hcase : p.pi < (dom m p.di).length - 1
  · right
    have hfwd : fwd m p = ⟨p.di, p.pi + 1⟩ := by
      simp [fwd, hend, sub1u64_eq _ hlen1 hlen2, hcase]
    constructor
    · rw [hfwd]
      refine ⟨hvp.1, ?_⟩
      show p.pi + 1 < (dom m p.di).length
      omega
    · rw [hfwd]
  · have hdrop : (dom m p.di).drop (p.pi + 1) = [] := by
      apply List.drop_eq_nil_of_le
      have := hvp.2
      omega
    have hrest : restFrom m p.di (p.pi + 1) = (m.hash_table.drop (p.di + 1)).flatten := by
      unfold restFrom
      rw [hdrop, List.nil_append]
    rcases findNE_spec m (p.di + 1) with ⟨hnone, hall⟩ | ⟨j, hj, h1, h2, h3, h4⟩
    · left
      constructor
      · rw [hrest]
        exact dom_flatten_skip m hl (m.max_domains - (p.di + 1)) (p.di + 1) rfl hall
      · simp [fwd, hend, sub1u64_eq _ hlen1 hlen2, hcase, hnone]
    · right
      have hfwd : fwd m p = ⟨j, 0⟩ := by
        simp [fwd, hend, sub1u64_eq _ hlen1 hlen2, hcase, hj]
      rcases findNE_decomp m hl (p.di + 1) j hj with ⟨_, hj2, hj3, hj4⟩
      constructor
      · rw [hfwd]
        exact ⟨hj2, List.length_pos.mpr hj3⟩
      · rw [hfwd, hrest]
        unfold restFrom
        rw [List.drop_zero]
        exact hj4.symm

theorem restFrom_length_le (m : HMap K V)
    (hl : m.hash_table.length = m.max_domains) (p : IterPos)
    (hvp : ValidPos m p) :
    (restFrom m p.di p.pi).length ≤ (flatTable m).length := by
  have hdi : p.di < m.hash_table.length := by
    have := hvp.1
    omega
  have hsplit : flatTable m =
      (m.hash_table.take p.di).flatten ++
        (dom m p.di ++ (m.hash_table.drop (p.di + 1)).flatten) := by
    unfold flatTable
    conv_lhs => rw [← List.take_append_drop p.di m.hash_table]
    rw [List.flatten_append, drop_flatten_cons _ _ hdi,
      show m.hash_table.getD p.di [] = dom m p.di from rfl]
  rw [hsplit]
  simp only [restFrom, List.length_append, List.length_drop]
  omega

/-! ## Iterator lemmas: the tombstone-skipping dereference loop -/

theorem dropUntilLive_nil_iff (l : List (HPair K V)) :
    dropUntilLive l = [] ↔ ∀ e ∈ l, e.is_valid = false := by
  induction l with
  | nil => simp [dropUntilLive]
  | cons e es ih =>
    by_cases hv : e.is_valid
    · simp [dropUntilLive, hv]
    · simp [dropUntilLive, hv, ih, Bool.not_eq_true] at *

theorem dropUntilLive_cons_spec (l : List (HPair K V)) (x : HPair K V)
    (suf : List (HPair K V)) (h : dropUntilLive l = x :: suf) :
    x.is_valid = true ∧
    l.filter (fun e => e.is_valid) = x :: suf.filter (fun e => e.is_valid) ∧
    l.getLast? = (x :: suf).getLast? ∧
    suf.length < l.length := by
  induction l with
  | nil => cases h
  | cons e es ih =>
    by_cases hv : e.is_valid
    · simp only [dropUntilLive, if_pos hv] at h
      injection h with h1 h2
      subst h1
      subst h2
      refine ⟨hv, ?_, rfl, by simp⟩
      simp [List.filter_cons, hv]
    · simp only [dropUntilLive, if_neg hv] at h
      rcases ih h with ⟨h1, h2, h3, h4⟩
      refine ⟨h1, ?_, ?_, by simp; omega⟩
      · rw [List.filter_cons_of_neg (by simpa using hv), h2]
      · cases es with
        | nil => simp [dropUntilLive] at h
        | cons b bs => rw [List.getLast?_cons_cons, h3]

theorem runFor_end (m : HMap K V) (fuel : Nat) (l : Option (HPair K V))
    (acc : List (HPair K V)) :
    runFor m fuel ⟨endPos, l⟩ acc = acc.reverse := by
  cases fuel with
  | zero => rw [runFor]
  | succ n =>
    rw [runFor]
    rw [show (⟨endPos, l⟩ : IterSt K V).pos.isEnd = true from endPos_isEnd]
    rw [if_pos rfl]

theorem derefLoop_spec (m : HMap K V) (hwf : WFbase m) :
    ∀ (rest : List (HPair K V)) (fuel : Nat) (p : IterPos) (e : HPair K V),
      ValidPos m p → restFrom m p.di p.pi = e :: rest → rest.length < fuel →
      (∀ x suf, dropUntilLive (e :: rest) = x :: suf →
        ∃ q, derefLoop m fuel p e = (x, q) ∧ ValidPos m q ∧
          restFrom m q.di q.pi = x :: suf) ∧
      (dropUntilLive (e :: rest) = [] →
        ∃ t, (e :: rest).getLast? = some t ∧
          derefLoop m fuel p e = (t, endPos)) := by
  intro rest
  induction rest with
  | nil =>
    intro fuel p e hvp hrest hfuel
    obtain ⟨f, rfl⟩ : ∃ f, fuel = f + 1 := ⟨fuel - 1, by omega⟩
    constructor
    · intro x suf hx
      by_cases hv : e.is_valid
      · simp only [dropUntilLive, if_pos hv] at hx
        injection hx with h1 h2
        subst h1
        subst h2
        refine ⟨p, by simp [derefLoop, hv], hvp, ?_⟩
        rw [hrest]
      · simp only [dropUntilLive, if_neg hv] at hx
        cases hx
    · intro hnil
      by_cases hv : e.is_valid
      · simp [dropUntilLive, hv] at hnil
      · refine ⟨e, List.getLast?_singleton e, ?_⟩
        have hcons := restFrom_cons m p hvp
        rw [hrest] at hcons
        injection hcons with h1 h2
        rcases fwd_end_or_valid m hwf p hvp with ⟨_, hfwd⟩ | ⟨hvq, hrq⟩
        · simp [derefLoop, hv, hfwd, endPos_isEnd]
        · exfalso
          have hcons2 := restFrom_cons m (fwd m p) hvq
          rw [hrq, ← h2] at hcons2
          cases hcons2
  | cons e2 rest2 ih =>
    intro fuel p e hvp hrest hfuel
    obtain ⟨f, rfl⟩ : ∃ f, fuel = f + 1 := ⟨fuel - 1, by omega⟩
    by_cases hv : e.is_valid
    · constructor
      · intro x suf hx
        simp only [dropUntilLive, if_pos hv] at hx
        injection hx with h1 h2
        subst h1
        subst h2
        refine ⟨p, by simp [derefLoop, hv], hvp, ?_⟩
        rw [hrest]
      · intro hnil
        simp [dropUntilLive, hv] at hnil
    · have hcons := restFrom_cons m p hvp
      rw [hrest] at hcons
      injection hcons with hhead htail
      rcases fwd_end_or_valid m hwf p hvp with ⟨hnil2, _⟩ | ⟨hvq, hrq⟩
      · rw [← htail] at hnil2
        cases hnil2
      · rw [← htail] at hrq
        have hqend : (fwd m p).isEnd = false :=
          validPos_isEnd_false m (fwd m p) hwf.2.1 hvq
        have hgetq : (dom m (fwd m p).di)[(fwd m p).pi]? = some e2 := by
          have hc := restFrom_cons m (fwd m p) hvq
          rw [hrq] at hc
          injection hc with hc1 _
          rw [validPos_getElem? m _ hvq, ← hc1]
        have hstep : derefLoop m (f + 1) p e = derefLoop m f (fwd m p) e2 := by
          simp [derefLoop, hv, hqend, hgetq]
        have hih := ih f (fwd m p) e2 hvq hrq
          (by simp only [List.length_cons] at hfuel; omega)
        constructor
        · intro x suf hx
          simp only [dropUntilLive, if_neg hv] at hx
          rcases hih.1 x suf hx with ⟨q, hq1, hq2, hq3⟩
          exact ⟨q, by rw [hstep, hq1], hq2, hq3⟩
        · intro hnil
          simp only [dropUntilLive, if_neg hv] at hnil
          rcases hih.2 hnil with ⟨t, ht1, ht2⟩
          refine ⟨t, ?_, by rw [hstep, ht2]⟩
          rw [List.getLast?_cons_cons, ht1]

/-! ## Iterator lemmas: the range-for loop -/

theorem runFor_spec (m : HMap K V) (hwf : WFbase m) :
    ∀ (n : Nat) (rest : List (HPair K V)), rest.length ≤ n →
      ∀ (fuel : Nat) (it : IterSt K V) (acc : List (HPair K V)),
        ValidPos m it.pos → restFrom m it.pos.di it.pos.pi = rest →
        rest.length < fuel →
        runFor m fuel it acc =
          acc.reverse ++ (rest.filter (fun e => e.is_valid) ++ tombTail rest) := by
  intro n
  induction n with
  | zero =>
    intro rest hlen fuel it acc hvp hrest hfuel
    exfalso
    have hcons := restFrom_cons m it.pos hvp
    rw [hrest] at hcons
    have hnil : rest = [] := List.length_eq_zero.mp (by omega)
    rw [hnil] at hcons
    cases hcons
  | succ n ih =>
    intro rest hlen fuel it acc hvp hrest hfuel
    obtain ⟨f, rfl⟩ : ∃ f, fuel = f + 1 := ⟨fuel - 1, by omega⟩
    cases rest with
    | nil =>
      exfalso
      have hcons := restFrom_cons m it.pos hvp
      rw [hrest] at hcons
      cases hcons
    | cons e0 rest2 =>
      have hend : it.pos.isEnd = false := validPos_isEnd_false m it.pos hwf.2.1 hvp
      have hget : (dom m it.pos.di)[it.pos.pi]? = some e0 := by
        have hcons := restFrom_cons m it.pos hvp
        rw [hrest] at hcons
        injection hcons with hc1 _
        rw [validPos_getElem? m _ hvp, ← hc1]
      have hds : rest2.length < get_total_size m + 1 := by
        have h1 := restFrom_length_le m hwf.1 it.pos hvp
        rw [hrest] at h1
        rw [get_total_size_eq_flatten m hwf.1]
        simp only [List.length_cons] at h1
        omega
      cases hdrop : dropUntilLive (e0 :: rest2) with
      | cons x suf =>
        rcases (derefLoop_spec m hwf rest2 (get_total_size m + 1) it.pos e0 hvp
          hrest hds).1 x suf hdrop with ⟨q, hq1, hvq, hq3⟩
        have hderef : derefOp m it = .ok (x, ⟨q, some x⟩) := by
          simp [derefOp, hend, hget, hq1]
        have hstep : runFor m (f + 1) it acc =
            runFor m f (incOp m ⟨q, some x⟩) (x :: acc) := by
          simp [runFor, hend, hderef]
        rw [hstep]
        have hqend : q.isEnd = false := validPos_isEnd_false m q hwf.2.1 hvq
        have hinc : incOp m ⟨q, some x⟩ = ⟨fwd m q, some x⟩ := by
          simp [incOp, hqend]
        rcases dropUntilLive_cons_spec (e0 :: rest2) x suf hdrop with
          ⟨hxv, hfil, hlast, hsuflen⟩
        rcases fwd_end_or_valid m hwf q hvq with ⟨hnil2, hfwd⟩ | ⟨hvq2, hrq2⟩
        · have hcq := restFrom_cons m q hvq
          rw [hq3] at hcq
          injection hcq with hc1 hc2
          have hsufnil : suf = [] := by
            rw [hc2]
            exact hnil2
          rw [hinc, hfwd, runFor_end]
          have htt : tombTail (e0 :: rest2) = [] := by
            simp [tombTail, hlast, hsufnil, List.getLast?_singleton, hxv]
          rw [hfil, htt, hsufnil]
          simp [List.reverse_cons]
        · have hcq := restFrom_cons m q hvq
          rw [hq3] at hcq
          injection hcq with hc1 hc2
          have hrfwd : restFrom m (fwd m q).di (fwd m q).pi = suf := by
            rw [hrq2, ← hc2]
          have hsufne : suf ≠ [] := by
            have hcf := restFrom_cons m (fwd m q) hvq2
            rw [hrfwd] at hcf
            rw [hcf]
            exact List.cons_ne_nil _ _
          have hlen2 : suf.length ≤ n := by
            simp only [List.length_cons] at hlen hsuflen
            omega
          have hfuel2 : suf.length < f := by
            simp only [List.length_cons] at hfuel hsuflen
            omega
          have hrec := ih suf hlen2 f ⟨fwd m q, some x⟩ (x :: acc) hvq2 hrfwd hfuel2
          rw [hinc, hrec]
          have hgl : (e0 :: rest2).getLast? = suf.getLast? := by
            rw [hlast]
            cases suf with
            | nil => exact absurd rfl hsufne
            | cons b bs => rw [List.getLast?_cons_cons]
          have htt : tombTail (e0 :: rest2) = tombTail suf := by
            unfold tombTail
            rw [hgl]
          rw [hfil, htt]
          simp [List.reverse_cons]
      | nil =>
        rcases (derefLoop_spec m hwf rest2 (get_total_size m + 1) it.pos e0 hvp
          hrest hds).2 hdrop with ⟨t, ht1, ht2⟩
        have hderef : derefOp m it = .ok (t, ⟨endPos, some t⟩) := by
          simp [derefOp, hend, hget, ht2]
        have hstep : runFor m (f + 1) it acc =
            runFor m f (incOp m ⟨endPos, some t⟩) (t :: acc) := by
          simp [runFor, hend, hderef]
        have hinc : incOp m ⟨endPos, some t⟩ = ⟨endPos, some t⟩ := by
          simp [incOp, endPos_isEnd]
        rw [hstep, hinc, runFor_end]
        have hallinv := (dropUntilLive_nil_iff (e0 :: rest2)).mp hdrop
        have hfil : (e0 :: rest2).filter (fun e => e.is_valid) = [] := by
          rw [List.filter_eq_nil_iff]
          intro a ha
          simp [hallinv a ha]
        have htmem : t ∈ (e0 :: rest2) := by
          have hgl := List.getLast?_eq_getLast (e0 :: rest2) (List.cons_ne_nil _ _)
          rw [ht1] at hgl
          injection hgl with hgl2
          rw [hgl2]
          exact List.getLast_mem _
        have htinv : t.is_valid = false := hallinv t htmem
        have htt : tombTail (e0 :: rest2) = [t] := by
          simp [tombTail, ht1, htinv]
        rw [hfil, htt]
        simp [List.reverse_cons]

theorem beginIter_spec (m : HMap K V) (hwf : WFbase m)
    (hne : get_total_size m ≠ 0) :
    ∃ p, beginIter m = ⟨p, none⟩ ∧ ValidPos m p ∧
      restFrom m p.di p.pi = flatTable m := by
  rcases findNE_spec m 0 with ⟨hnone, hall⟩ | ⟨j, hj, h1, h2, h3, h4⟩
  · exfalso
    apply hne
    rw [get_total_size_eq_flatten m hwf.1]
    have hflat : (m.hash_table.drop 0).flatten = [] :=
      dom_flatten_skip m hwf.1 (m.max_domains - 0) 0 rfl
        (fun j hj1 hj2 => hall j (by omega) hj2)
    rw [List.drop_zero] at hflat
    unfold flatTable
    rw [hflat]
    rfl
  · refine ⟨⟨j, 0⟩, ?_, ⟨h2, List.length_pos.mpr h3⟩, ?_⟩
    · simp [beginIter, hne, hj]
    · rcases findNE_decomp m hwf.1 0 j hj with ⟨-, -, -, hdecomp⟩
      rw [List.drop_zero] at hdecomp
      unfold restFrom
      rw [List.drop_zero]
      show dom m j ++ (m.hash_table.drop (j + 1)).flatten = flatTable m
      unfold flatTable
      rw [hdecomp]

/-! ## Claim C3: what iteration yields -/

theorem iterYield_eq (m : HMap K V) (hwf : WFbase m) :
    iterYield m = liveEntries m ++ tombTail (flatTable m) := by
  by_cases h0 : get_total_size m = 0
  · have hflat : flatTable m = [] := by
      have h1 := get_total_size_eq_flatten m hwf.1
      rw [h0] at h1
      exact List.length_eq_zero.mp h1.symm
    have hb : beginIter m = ⟨endPos, none⟩ := by
      simp [beginIter, h0]
    unfold iterYield
    rw [hb, runFor_end]
    simp [liveEntries, hflat, tombTail]
  · rcases beginIter_spec m hwf h0 with ⟨p, hb, hvp, hrest⟩
    unfold iterYield
    rw [hb]
    have hlen : (flatTable m).length < get_total_size m + 1 := by
      rw [get_total_size_eq_flatten m hwf.1]
      omega
    have hrun := runFor_spec m hwf (flatTable m).length (flatTable m)
      (Nat.le_refl _) (get_total_size m + 1) ⟨p, none⟩ [] hvp hrest hlen
    rw [hrun]
    simp [liveEntries]

/-- C3 (amended): iterating from `begin()` to `end()` yields exactly the
live entries in table order, plus — when the table is nonempty and its
final slot is tombstoned — that final tombstoned slot yielded once by the
last dereference (whose skip loop hits the end sentinel and returns the
stale last-visited pair); dereferencing on a tombstoned slot auto-advances
to the next live slot whenever one exists. -/
theorem iteration_yields (m : HMap K V) (hwf : WFbase m) :
    iterYield m = liveEntries m ++ tombTail (flatTable m) ∧
    ∀ (it : IterSt K V) (e0 x : HPair K V) (rest suf : List (HPair K V)),
      ValidPos m it.pos → restFrom m it.pos.di it.pos.pi = e0 :: rest →
      dropUntilLive (e0 :: rest) = x :: suf →
      x.is_valid = true ∧ ∃ it2, derefOp m it = .ok (x, it2) := by
  constructor
  · exact iterYield_eq m hwf
  · intro it e0 x rest suf hvp hrest hdrop
    have hds : rest.length < get_total_size m + 1 := by
      have h1 := restFrom_length_le m hwf.1 it.pos hvp
      rw [hrest] at h1
      rw [get_total_size_eq_flatten m hwf.1]
      simp only [List.length_cons] at h1
      omega
    rcases (derefLoop_spec m hwf rest (get_total_size m + 1) it.pos e0 hvp
      hrest hds).1 x suf hdrop with ⟨q, hq1, -, -⟩
    have hend : it.pos.isEnd = false := validPos_isEnd_false m it.pos hwf.2.1 hvp
    have hget : (dom m it.pos.di)[it.pos.pi]? = some e0 := by
      have hcons := restFrom_cons m it.pos hvp
      rw [hrest] at hcons
      injection hcons with hc1 _
      rw [validPos_getElem? m _ hvp, ← hc1]
    refine ⟨(dropUntilLive_cons_spec _ x suf hdrop).1, ⟨q, some x⟩, ?_⟩
    simp [derefOp, hend, hget, hq1]

/-- Witness for C3 (amended) on `mapD` (one live entry, one tombstone). -/
theorem iteration_yields_witness :
    WFbase mapD ∧
    iterYield mapD = liveEntries mapD ++ tombTail (flatTable mapD) := by
  have hwf : WFbase mapD := by decide
  exact ⟨hwf, (iteration_yields mapD hwf).1⟩

/-- C3 counterexample to the unamended claim: on the reachable map `mapB`
(insert then remove one key) the full iteration yields the tombstoned
slot `(0, 5)`. -/
theorem iteration_yields_tombstone_counterexample :
    iterYield mapB = [⟨0, 5, TOMB⟩] ∧
    (⟨0, 5, TOMB⟩ : HPair Nat Nat).is_valid = false := by
  constructor <;> decide

/-! ## Resize lemmas: reduction to a push loop over the live entries -/

theorem foldl_if_filter (es : List (HPair K V)) (m0 : HMap K V) :
    es.foldl
      (fun acc e => if e.is_valid then noCheckInsert hashFn acc e.key e.value else acc)
      m0 =
    pushList hashFn m0 (es.filter (fun e => e.is_valid)) := by
  induction es generalizing m0 with
  | nil => rfl
  | cons e es ih =>
    by_cases hv : e.is_valid
    · simp only [List.foldl_cons, if_pos hv, List.filter_cons_of_pos hv]
      rw [ih]
      rfl
    · simp only [List.foldl_cons, if_neg hv,
        List.filter_cons_of_neg (by simpa using hv)]
      exact ih m0

theorem filter_iterYield (m : HMap K V) (hwf : WFbase m) :
    (iterYield m).filter (fun e => e.is_valid) = liveEntries m := by
  rw [iterYield_eq m hwf, List.filter_append]
  have h1 : (liveEntries m).filter (fun e => e.is_valid) = liveEntries m := by
    unfold liveEntries
    rw [List.filter_filter]
    simp
  have h2 : (tombTail (flatTable m)).filter (fun e => e.is_valid) = [] := by
    unfold tombTail
    cases hgl : (flatTable m).getLast? with
    | none => rfl
    | some e =>
      by_cases hv : e.is_valid
      · simp [hv]
      · simp [hv]
  rw [h1, h2, List.append_nil]

theorem resize_eq_pushList (m : HMap K V) (n : Nat) (hwf : WFbase m) :
    resizeOp hashFn m n = pushList hashFn (initMap n) (liveEntries m) := by
  unfold resizeOp
  rw [foldl_if_filter, filter_iterYield m hwf]

theorem pushList_dims (es : List (HPair K V)) (m0 : HMap K V) :
    (pushList hashFn m0 es).max_domains = m0.max_domains ∧
    (pushList hashFn m0 es).hash_table.length = m0.hash_table.length := by
  induction es generalizing m0 with
  | nil => exact ⟨rfl, rfl⟩
  | cons e es ih =>
    rcases ih (noCheckInsert hashFn m0 e.key e.value) with ⟨h1, h2⟩
    unfold pushList at *
    simp only [List.foldl_cons]
    refine ⟨h1.trans ?_, h2.trans ?_⟩
    · rfl
    · simp [noCheckInsert, setDomain]

theorem initMap_dom (n d : Nat) : dom (initMap n : HMap K V) d = [] := by
  unfold dom initMap
  rw [List.getD_eq_getElem?_getD, List.getElem?_replicate]
  by_cases hd : d < n % 2 ^ 32
  · rw [if_pos hd]
    rfl
  · rw [if_neg hd]
    rfl

theorem pushList_dom (es : List (HPair K V)) :
    ∀ (m0 : HMap K V), m0.hash_table.length = m0.max_domains →
      0 < m0.max_domains → ∀ d,
      dom (pushList hashFn m0 es) d =
        dom m0 d ++
          (es.map (fun e => (⟨e.key, e.value, hashFn e.key⟩ : HPair K V))).filter
            (fun e2 => eval_domain_index m0 e2.hash_value == d) := by
  induction es with
  | nil =>
    intro m0 _ _ d
    simp [pushList]
  | cons e es ih =>
    intro m0 hlen hpos d
    have hde : eval_domain_index m0 (hashFn e.key) < m0.max_domains :=
      eval_domain_index_lt m0 _ hpos
    have hstep : pushList hashFn m0 (e :: es) =
        pushList hashFn (noCheckInsert hashFn m0 e.key e.value) es := rfl
    have hm1max : (noCheckInsert hashFn m0 e.key e.value).max_domains =
        m0.max_domains := rfl
    have hm1len : (noCheckInsert hashFn m0 e.key e.value).hash_table.length =
        m0.hash_table.length := by
      simp [noCheckInsert, setDomain]
    have hdom1 : ∀ d2, dom (noCheckInsert hashFn m0 e.key e.value) d2 =
        dom m0 d2 ++
          (if eval_domain_index m0 (hashFn e.key) = d2
            then [(⟨e.key, e.value, hashFn e.key⟩ : HPair K V)] else []) := by
      intro d2
      show dom (setDomain m0 (eval_domain_index m0 (hashFn e.key))
        (dom m0 (eval_domain_index m0 (hashFn e.key)) ++
          [⟨e.key, e.value, hashFn e.key⟩])) d2 = _
      rw [dom_setDomain]
      by_cases hc : d2 = eval_domain_index m0 (hashFn e.key)
      · rw [if_pos ⟨hc, by omega⟩, if_pos hc.symm, hc]
      · rw [if_neg (by tauto), if_neg (fun hx => hc hx.symm), List.append_nil]
    rw [hstep, ih _ (by rw [hm1len, hm1max]; exact hlen) (by rw [hm1max]; exact hpos) d,
      hdom1 d]
    have hevcongr :
        (fun e2 : HPair K V =>
          eval_domain_index (noCheckInsert hashFn m0 e.key e.value) e2.hash_value == d) =
        (fun e2 : HPair K V => eval_domain_index m0 e2.hash_value == d) := by
      funext e2
      rw [eval_domain_index_congr _ m0 _ hm1max]
    rw [hevcongr, List.map_cons, List.filter_cons]
    by_cases hc : eval_domain_index m0 (hashFn e.key) = d
    · have : ((⟨e.key, e.value, hashFn e.key⟩ : HPair K V).hash_value.id0 % m0.max_domains +
          (⟨e.key, e.value, hashFn e.key⟩ : HPair K V).hash_value.id1 % m0.max_domains) %
          m0.max_domains = eval_domain_index m0 (hashFn e.key) := rfl
      rw [if_pos hc, show (eval_domain_index m0
          (⟨e.key, e.value, hashFn e.key⟩ : HPair K V).hash_value == d) = true
        from by simp [hc.symm]]
      simp [List.append_assoc]
    · rw [if_neg hc, show (eval_domain_index m0
          (⟨e.key, e.value, hashFn e.key⟩ : HPair K V).hash_value == d) = false
        from by simp; exact fun hx => hc hx]
      simp

/-! ## Resize lemmas: the bucket partition is a permutation of its input -/

theorem flatten_map_nil {α : Type} (ds : List Nat) :
    ((ds.map (fun _ => ([] : List α))).flatten) = [] := by
  induction ds with
  | nil => rfl
  | cons d ds ih =>
    rw [List.map_cons, List.flatten_cons, List.nil_append]
    exact ih

theorem buckets_insert_perm {α : Type} (g : α → Nat) :
    ∀ (ds : List Nat), ds.Nodup → ∀ (x : α) (l : List α), g x ∈ ds →
      List.Perm
        ((ds.map (fun d => (x :: l).filter (fun y => g y == d))).flatten)
        (x :: (ds.map (fun d => l.filter (fun y => g y == d))).flatten) := by
  intro ds
  induction ds with
  | nil =>
    intro _ x l hx
    cases hx
  | cons d ds2 ih =>
    intro hnd x l hx
    have hnd2 : ds2.Nodup := (List.nodup_cons.mp hnd).2
    have hdnotin : d ∉ ds2 := (List.nodup_cons.mp hnd).1
    rcases List.mem_cons.mp hx with heq | hmem
    · have hfilters : ∀ d2 ∈ ds2,
          (x :: l).filter (fun y => g y == d2) = l.filter (fun y => g y == d2) := by
        intro d2 hd2
        have hne : g x ≠ d2 := by
          intro hcon
          rw [heq] at hcon
          exact hdnotin (hcon ▸ hd2)
        rw [List.filter_cons_of_neg (by simp [hne])]
      rw [List.map_cons, List.flatten_cons, List.filter_cons_of_pos (by simp [heq]),
        List.map_congr_left hfilters, List.map_cons, List.flatten_cons,
        List.cons_append]
    · have hgd : g x ≠ d := by
        intro hcon
        exact hdnotin (hcon ▸ hmem)
      rw [List.map_cons, List.flatten_cons, List.filter_cons_of_neg (by simp [hgd]),
        List.map_cons, List.flatten_cons]
      exact List.Perm.trans
        (List.Perm.append_left _ (ih hnd2 x l hmem)) List.perm_middle

theorem buckets_perm {α : Type} (g : α → Nat) (D : Nat) :
    ∀ (l : List α), (∀ x ∈ l, g x < D) →
      List.Perm (((List.range D).map (fun d => l.filter (fun y => g y == d))).flatten) l := by
  intro l
  induction l with
  | nil =>
    intro _
    have hnils : ∀ d ∈ List.range D,
        ([] : List α).filter (fun y => g y == d) = (fun _ : Nat => ([] : List α)) d := by
      intro d _
      rfl
    rw [List.map_congr_left hnils, flatten_map_nil]
  | cons x l ih =>
    intro hall
    have hx : g x ∈ List.range D :=
      List.mem_range.mpr (hall x (List.mem_cons_self x l))
    exact List.Perm.trans
      (buckets_insert_perm g (List.range D) (List.nodup_range D) x l hx)
      (List.Perm.cons x (ih (fun y hy => hall y (List.mem_cons_of_mem x hy))))

/-! ## Resize lemmas: first-match search through filters and flattens -/

theorem find?_filter_sub {α : Type} (p q : α → Bool) (l : List α)
    (h : ∀ x ∈ l, p x = true → q x = true) :
    (l.filter q).find? p = l.find? p := by
  induction l with
  | nil => rfl
  | cons x l ih =>
    have ihtail := ih (fun y hy => h y (List.mem_cons_of_mem x hy))
    by_cases hq : q x = true
    · rw [List.filter_cons_of_pos hq, List.find?_cons, List.find?_cons]
      cases hp : p x with
      | true => rfl
      | false => exact ihtail
    · have hp : p x = false := by
        cases hpx : p x with
        | false => rfl
        | true => exact absurd (h x (List.mem_cons_self x l) hpx) hq
      rw [List.filter_cons_of_neg (by simpa using hq), List.find?_cons, hp, ihtail]

theorem scanIdx_getElem_find (l : List (HPair K V)) (h : Hash128) :
    (match scanIdx l h with
      | some i => l[i]?
      | none => none) = l.find? (fun e => e.hash_value == h) := by
  induction l with
  | nil => rfl
  | cons e es ih =>
    by_cases he : e.hash_value = h
    · simp [scanIdx, he, List.find?_cons]
    · have hbe : (e.hash_value == h) = false := by simp [he]
      have haux : (match (scanIdx es h).map (· + 1) with
          | some i => (e :: es)[i]?
          | none => (none : Option (HPair K V))) =
          (match scanIdx es h with
          | some i => es[i]?
          | none => none) := by
        cases hscan : scanIdx es h with
        | none => rfl
        | some i => simp
      simp only [scanIdx, if_neg he]
      rw [haux, ih, List.find?_cons, hbe]

theorem getOp_eq_find (m : HMap K V) (k : K) :
    getOp hashFn m k =
      ((dom m (eval_domain_index m (hashFn k))).find?
        (fun e => e.hash_value == hashFn k)).map HPair.value := by
  rw [← scanIdx_getElem_find]
  simp only [getOp]
  cases hscan : scanIdx (dom m (eval_domain_index m (hashFn k))) (hashFn k) <;>
    simp [hscan]

theorem find?_flatten_unique {α : Type} (p : α → Bool) :
    ∀ (L : List (List α)) (d0 : Nat), d0 < L.length →
      (∀ (j : Nat) (hj : j < L.length), j ≠ d0 → ∀ x ∈ L[j], p x = false) →
      L.flatten.find? p = (L.getD d0 []).find? p := by
  intro L
  induction L with
  | nil =>
    intro d0 hd0 _
    simp at hd0
  | cons l L2 ih =>
    intro d0 hd0 hnomatch
    cases d0 with
    | zero =>
      rw [List.flatten_cons, List.find?_append]
      have hnone : L2.flatten.find? p = none := by
        rw [List.find?_eq_none]
        intro x hx hpx
        rcases List.mem_flatten.mp hx with ⟨l2, hl2, hxl2⟩
        rcases List.mem_iff_getElem?.mp hl2 with ⟨j, hj⟩
        obtain ⟨hjlt, hjeq⟩ := List.getElem?_eq_some.mp hj
        have hfalse := hnomatch (j + 1) (by simpa using hjlt) (by omega) x
          (by simpa [hjeq] using hxl2)
        rw [hfalse] at hpx
        cases hpx
      rw [hnone, Option.or_none]
      rfl
    | succ d =>
      rw [List.flatten_cons, List.find?_append]
      have hnone : l.find? p = none := by
        rw [List.find?_eq_none]
        intro x hx hpx
        have hfalse := hnomatch 0 (by simp) (by omega) x (by simpa using hx)
        rw [hfalse] at hpx
        cases hpx
      rw [hnone, Option.none_or]
      have hd2 : d < L2.length := by simpa using hd0
      rw [ih d hd2 ?_]
      · rfl
      · intro j hj hne x hxmem
        exact hnomatch (j + 1) (by simpa using hj) (by omega) x (by simpa using hxmem)

/-! ## Resize lemmas: rebuilding preserves live entries -/

theorem liveEntries_mem_spec (m : HMap K V)
    (hl : m.hash_table.length = m.max_domains) (hwfd : WFdomains hashFn m) :
    ∀ e ∈ liveEntries m, e.is_valid = true ∧ e.hash_value = hashFn e.key := by
  intro e he
  have hval : e.is_valid = true := List.of_mem_filter he
  have hmem : e ∈ flatTable m := List.mem_of_mem_filter he
  rcases List.mem_flatten.mp hmem with ⟨l2, hl2, hel2⟩
  rcases List.mem_iff_getElem?.mp hl2 with ⟨d, hd⟩
  obtain ⟨hdlt, hdeq⟩ := List.getElem?_eq_some.mp hd
  have hdom : dom m d = l2 := by
    unfold dom
    rw [List.getD_eq_getElem?_getD, hd]
    rfl
  have hd2 : d ∈ List.range m.max_domains := List.mem_range.mpr (by omega)
  have hwfx := hwfd d hd2 e (by rw [hdom]; exact hel2) hval
  exact ⟨hval, hwfx.1⟩

theorem mapped_lives_eq (m : HMap K V)
    (hl : m.hash_table.length = m.max_domains) (hwfd : WFdomains hashFn m) :
    (liveEntries m).map
      (fun e => (⟨e.key, e.value, hashFn e.key⟩ : HPair K V)) = liveEntries m := by
  have hpt : ∀ e ∈ liveEntries m,
      (⟨e.key, e.value, hashFn e.key⟩ : HPair K V) = (fun e => e) e := by
    intro e he
    have h2 := (liveEntries_mem_spec hashFn m hl hwfd e he).2
    cases e with
    | mk ek ev eh =>
      have h3 : eh = hashFn ek := by simpa using h2
      simp [h3]
  rw [List.map_congr_left hpt]
  simp

theorem resize_max_eq (m : HMap K V) (n : Nat) :
    (resizeOp hashFn m n).max_domains = n % 2 ^ 32 := by
  unfold resizeOp
  rw [(resize_foldl_dims hashFn _ _).1]
  rfl

theorem resize_buckets_mod (m : HMap K V) (n : Nat) :
    buckets_count (resizeOp hashFn m n) = n % 2 ^ 32 := by
  unfold buckets_count get_domain_count
  rw [resize_max_eq]
  omega

theorem resize_table_eq (m : HMap K V) (n : Nat) (hwfb : WFbase m)
    (hwfd : WFdomains hashFn m) (hpos : 0 < n % 2 ^ 32) :
    (resizeOp hashFn m n).hash_table =
      (List.range (n % 2 ^ 32)).map
        (fun d => (liveEntries m).filter
          (fun e2 => eval_domain_index (initMap n : HMap K V) e2.hash_value == d)) := by
  have hres := resize_eq_pushList hashFn m n hwfb
  have hinitlen : (initMap n : HMap K V).hash_table.length =
      (initMap n : HMap K V).max_domains := by
    simp [initMap]
  have hdims := pushList_dims hashFn (liveEntries m) (initMap n : HMap K V)
  have hplen : (pushList hashFn (initMap n : HMap K V) (liveEntries m)).hash_table.length =
      n % 2 ^ 32 := by
    rw [hdims.2]
    simp [initMap]
  rw [hres]
  apply List.ext_getElem?
  intro j
  by_cases hj : j < n % 2 ^ 32
  · have hjlen : j < (pushList hashFn (initMap n : HMap K V)
        (liveEntries m)).hash_table.length := by omega
    have hjr : j < ((List.range (n % 2 ^ 32)).map
        (fun d => (liveEntries m).filter
          (fun e2 => eval_domain_index (initMap n : HMap K V) e2.hash_value == d))).length := by
      simpa using hj
    rw [List.getElem?_eq_getElem hjlen, List.getElem?_eq_getElem hjr]
    have hl : (pushList hashFn (initMap n : HMap K V) (liveEntries m)).hash_table[j] =
        dom (pushList hashFn (initMap n : HMap K V) (liveEntries m)) j := by
      unfold dom
      rw [List.getD_eq_getElem?_getD, List.getElem?_eq_getElem hjlen]
      rfl
    have hr : ((List.range (n % 2 ^ 32)).map
        (fun d => (liveEntries m).filter
          (fun e2 => eval_domain_index (initMap n : HMap K V) e2.hash_value == d)))[j] =
        (liveEntries m).filter
          (fun e2 => eval_domain_index (initMap n : HMap K V) e2.hash_value == j) := by
      rw [List.getElem_map, List.getElem_range]
    rw [hl, hr, pushList_dom hashFn (liveEntries m) (initMap n : HMap K V) hinitlen hpos j,
      initMap_dom, List.nil_append, mapped_lives_eq hashFn m hwfb.1 hwfd]
  · rw [List.getElem?_eq_none (by omega), List.getElem?_eq_none (by simpa using hj)]

theorem resize_flat_perm (m : HMap K V) (n : Nat) (hwfb : WFbase m)
    (hwfd : WFdomains hashFn m) (hpos : 0 < n % 2 ^ 32) :
    List.Perm (flatTable (resizeOp hashFn m n)) (liveEntries m) := by
  unfold flatTable
  rw [resize_table_eq hashFn m n hwfb hwfd hpos]
  apply buckets_perm
    (fun e2 : HPair K V => eval_domain_index (initMap n : HMap K V) e2.hash_value)
    (n % 2 ^ 32)
  intro x _
  exact eval_domain_index_lt (initMap n : HMap K V) x.hash_value hpos

theorem resize_all_valid (m : HMap K V) (n : Nat) (hwfb : WFbase m)
    (hwfd : WFdomains hashFn m) (hpos : 0 < n % 2 ^ 32) :
    ∀ e ∈ flatTable (resizeOp hashFn m n), e.is_valid = true := by
  intro e he
  have hperm := resize_flat_perm hashFn m n hwfb hwfd hpos
  exact List.of_mem_filter (hperm.mem_iff.mp he)

theorem resize_get_preserved (m : HMap K V) (n : Nat) (hwfb : WFbase m)
    (hpos0 : 0 < m.max_domains) (hwfd : WFdomains hashFn m)
    (hposD : 0 < n % 2 ^ 32) (k : K) (hk : hashFn k ≠ TOMB) :
    getOp hashFn (resizeOp hashFn m n) k = getOp hashFn m k := by
  rw [getOp_eq_find, getOp_eq_find]
  have hevnew : eval_domain_index (resizeOp hashFn m n) (hashFn k) =
      eval_domain_index (initMap n : HMap K V) (hashFn k) :=
    eval_domain_index_congr _ _ _ (by rw [resize_max_eq hashFn m n]; rfl)
  have hdomnew : dom (resizeOp hashFn m n)
      (eval_domain_index (initMap n : HMap K V) (hashFn k)) =
      (liveEntries m).filter
        (fun e2 => eval_domain_index (initMap n : HMap K V) e2.hash_value ==
          eval_domain_index (initMap n : HMap K V) (hashFn k)) := by
    rw [resize_eq_pushList hashFn m n hwfb,
      pushList_dom hashFn (liveEntries m) (initMap n : HMap K V)
        (by simp [initMap]) hposD _,
      initMap_dom, List.nil_append, mapped_lives_eq hashFn m hwfb.1 hwfd]
  have hsub : ∀ x ∈ liveEntries m, (x.hash_value == hashFn k) = true →
      (eval_domain_index (initMap n : HMap K V) x.hash_value ==
        eval_domain_index (initMap n : HMap K V) (hashFn k)) = true := by
    intro x _ hpx
    have hxh : x.hash_value = hashFn k := by simpa using hpx
    rw [hxh]
    simp
  rw [hevnew, hdomnew, find?_filter_sub _ _ _ hsub]
  have hdoldlt : eval_domain_index m (hashFn k) < m.max_domains :=
    eval_domain_index_lt m _ hpos0
  have hstepA : (dom m (eval_domain_index m (hashFn k))).find?
      (fun e => e.hash_value == hashFn k) =
      ((dom m (eval_domain_index m (hashFn k))).filter
        (fun e => e.is_valid)).find? (fun e => e.hash_value == hashFn k) := by
    rw [find?_filter_sub]
    intro x _ hpx
    have hxh : x.hash_value = hashFn k := by simpa using hpx
    exact (pair_is_valid_iff x).mpr (hxh ▸ hk)
  have hmaplen : eval_domain_index m (hashFn k) <
      (m.hash_table.map (List.filter (fun e => e.is_valid))).length := by
    rw [List.length_map, hwfb.1]
    exact hdoldlt
  have hnomatch : ∀ (j : Nat)
      (hj : j < (m.hash_table.map (List.filter (fun e => e.is_valid))).length),
      j ≠ eval_domain_index m (hashFn k) →
      ∀ x ∈ (m.hash_table.map (List.filter (fun e => e.is_valid)))[j],
        (x.hash_value == hashFn k) = false := by
    intro j hj hne x hxmem
    rw [List.getElem_map] at hxmem
    have hxval : x.is_valid = true := List.of_mem_filter hxmem
    have hjlt : j < m.hash_table.length := by simpa using hj
    have hxdom : x ∈ dom m j := by
      have hx2 := List.mem_of_mem_filter hxmem
      unfold dom
      rw [List.getD_eq_getElem?_getD, List.getElem?_eq_getElem hjlt]
      exact hx2
    have hlenmax := hwfb.1
    have hjrange : j ∈ List.range m.max_domains := by
      rw [List.mem_range]
      omega
    have hwfx := hwfd j hjrange x hxdom hxval
    cases hpx : (x.hash_value == hashFn k) with
    | false => rfl
    | true =>
      exfalso
      apply hne
      have hxh : x.hash_value = hashFn k := by simpa using hpx
      rw [← hwfx.2, hxh]
  have hgetd : (m.hash_table.map (List.filter (fun e => e.is_valid))).getD
      (eval_domain_index m (hashFn k)) [] =
      (dom m (eval_domain_index m (hashFn k))).filter (fun e => e.is_valid) := by
    rw [List.getD_eq_getElem?_getD, List.getElem?_eq_getElem hmaplen]
    show (m.hash_table.map (List.filter (fun e => e.is_valid)))[eval_domain_index m
      (hashFn k)] = _
    rw [List.getElem_map]
    congr 1
    unfold dom
    rw [List.getD_eq_getElem?_getD,
      List.getElem?_eq_getElem (hwfb.1.symm ▸ hdoldlt)]
    rfl
  have hstepB : (liveEntries m).find? (fun e => e.hash_value == hashFn k) =
      ((dom m (eval_domain_index m (hashFn k))).filter
        (fun e => e.is_valid)).find? (fun e => e.hash_value == hashFn k) := by
    unfold liveEntries flatTable
    rw [List.filter_flatten,
      find?_flatten_unique (fun e => e.hash_value == hashFn k)
        (m.hash_table.map (List.filter (fun e => e.is_valid)))
        (eval_domain_index m (hashFn k)) hmaplen hnomatch,
      hgetd]
  rw [hstepA, hstepB]

/-! ## Claim C2: resize rebuilds the table -/

/-- C2 (amended): for a well-formed map and a positive `n` below `2 ^ 32`,
after `resize(n)` the bucket count is `n`, the live entries are preserved
exactly once each (a permutation, hence an unchanged live count), no
tombstoned entry is carried into the new table, and every lookup with a
non-tombstone hash returns the same result as before.  For a count `n2`
whose `uint32_t` truncation `n2 % 2 ^ 32` is still positive, the rebuilt
domain count is that truncation, because `rehash` passes its `size_t`
count to the constructor's `uint32_t` parameter.  (When the truncation is
zero, `eval_domain_index` divides by zero as soon as a live entry is
re-inserted, so no result is asserted there; the counterexample's empty
map is the case that completes, with zero buckets.) -/
theorem resize_rebuild_spec (m : HMap K V) (n : Nat) (hwf : WF hashFn m)
    (hn1 : 0 < n) (hn2 : n < 2 ^ 32) :
    buckets_count (resizeOp hashFn m n) = n ∧
    (∀ n2, 0 < n2 % 2 ^ 32 → buckets_count (resizeOp hashFn m n2) = n2 % 2 ^ 32) ∧
    List.Perm (liveEntries (resizeOp hashFn m n)) (liveEntries m) ∧
    liveCount (resizeOp hashFn m n) = liveCount m ∧
    tombCount (resizeOp hashFn m n) = 0 ∧
    ∀ k, hashFn k ≠ TOMB →
      getOp hashFn (resizeOp hashFn m n) k = getOp hashFn m k := by
  obtain ⟨hwfb, hpos, hwfd, -⟩ := hwf
  have hD : n % 2 ^ 32 = n := Nat.mod_eq_of_lt hn2
  have hposD : 0 < n % 2 ^ 32 := by omega
  have hlive : liveEntries (resizeOp hashFn m n) = flatTable (resizeOp hashFn m n) := by
    unfold liveEntries
    rw [List.filter_eq_self]
    exact resize_all_valid hashFn m n hwfb hwfd hposD
  have hperm : List.Perm (liveEntries (resizeOp hashFn m n)) (liveEntries m) := by
    rw [hlive]
    exact resize_flat_perm hashFn m n hwfb hwfd hposD
  refine ⟨?_, ?_, hperm, ?_, ?_, ?_⟩
  · rw [resize_buckets_mod, hD]
  · intro n2 _
    exact resize_buckets_mod hashFn m n2
  · have h1 : liveCount (resizeOp hashFn m n) =
        (liveEntries (resizeOp hashFn m n)).length := rfl
    have h2 : liveCount m = (liveEntries m).length := rfl
    rw [h1, h2]
    exact hperm.length_eq
  · unfold tombCount
    rw [List.length_eq_zero, List.filter_eq_nil_iff]
    intro x hx
    simp [resize_all_valid hashFn m n hwfb hwfd hposD x hx]
  · intro k hk
    exact resize_get_preserved hashFn m n hwfb hpos hwfd hposD k hk

/-- Witness for C2 (amended): resizing `mapD` (one live entry, one
tombstone) from 2 to 3 domains. -/
theorem resize_rebuild_spec_witness :
    WF hashEx mapD ∧ (0 : Nat) < 3 ∧ (3 : Nat) < 2 ^ 32 ∧
    buckets_count (resizeOp hashEx mapD 3) = 3 ∧
    tombCount (resizeOp hashEx mapD 3) = 0 ∧
    getOp hashEx (resizeOp hashEx mapD 3) 2 = getOp hashEx mapD 2 := by
  have hwf : WF hashEx mapD := by decide
  have h := resize_rebuild_spec hashEx mapD 3 hwf (by decide) (by norm_num)
  exact ⟨hwf, by decide, by norm_num, h.1, h.2.2.2.2.1,
    h.2.2.2.2.2 2 (by decide)⟩

/-- C2 counterexample to the unamended claim: `resize(2 ^ 32)` on an
(empty) one-domain map leaves `buckets_count() = 0`, not `2 ^ 32`: the
`size_t` domain count is truncated by the constructor's `uint32_t`
parameter. -/
theorem resize_truncation_counterexample :
    (0 : Nat) < 2 ^ 32 ∧
    buckets_count (resizeOp hashEx (initMap 1 : HMap Nat Nat) (2 ^ 32)) = 0 ∧
    (0 : Nat) ≠ 2 ^ 32 := by
  refine ⟨by norm_num, ?_, by norm_num⟩
  decide

end GpHashMap
